import Mathlib

/-!
# Sway modulation engine: a shallow embedding of `SwayAudioProcessor`

The definitions below follow `Source/PluginProcessor.h` and
`Source/PluginProcessor.cpp`.  Samples of C++ type `float` are read as elements
of a linearly ordered field `α` with a floor function (exact arithmetic, no
rounding); the definitions are executable at `α = ℚ` and are instantiated at
`α = ℝ` with the real `sin`, `tan`, `tanh` and power function where a claim is
about those.  C++ `int` values are `Int`, loop counters and array slots that
the loops enumerate from `0` are `Nat`.

Arrays are total functions of their index, so a store or load past the end of a
`std::array` (undefined behaviour in C++) shows up as an index outside the
declared size rather than as a fault; `static_cast<int>` is truncation toward
zero, the `int` operator `%` is `Int.tmod`, and a division by zero yields `0`
as in any Lean field.  The values the four `juce::SmoothedValue` objects
return and the values the random generator draws are inputs of the model.  The
body of the sample loop of `processBlock` is split into `lfoStep`,
`engineStep`, `wetPair` and `processSample`; the statements keep their order.
-/

namespace Sway

/-- The functions of `<cmath>` and the constant `juce::MathConstants<float>::pi`
that the processor calls and that have no rational counterpart. -/
structure MathFns (α : Type) where
  sin : α → α
  tan : α → α
  tanh : α → α
  pow : α → α → α
  pi : α

/-- The real instance of the `<cmath>` functions. -/
noncomputable def realFns : MathFns ℝ where
  sin := Real.sin
  tan := Real.tan
  tanh := Real.tanh
  pow := fun x y => x ^ y
  pi := Real.pi

/-- A rational stand-in for the `<cmath>` functions (all constant), used only to
run the definitions on concrete inputs whose result does not depend on them. -/
def ratFns : MathFns ℚ where
  sin := fun _ => 0
  tan := fun _ => 0
  tanh := fun x => x
  pow := fun _ _ => 1
  pi := 3

/-- The locals `modeVal`, `shapeVal`, ... that `processBlock` loads from the
parameter tree at the top of a block (already divided by 100 where the code
does so).  `rateVal`, `depthVal`, `feedbackVal` and `mixVal` only feed the
smoothers and are represented by the `Smoothed` record. -/
structure Params (α : Type) where
  modeVal : Int
  shapeVal : Int
  stereoPhaseVal : α
  voicesVal : Int
  spreadVal : α
  warmthVal : α
  stagesVal : Int
  colorVal : α
  widthVal : α
  bypassVal : Bool

/-- The four values returned by `rateSmoothed.getNextValue()`,
`depthSmoothed.getNextValue()`, `feedbackSmoothed.getNextValue()` and
`mixSmoothed.getNextValue()` for one sample (`juce::SmoothedValue` is library
code; its outputs are taken as inputs). -/
structure Smoothed (α : Type) where
  curRate : α
  curDepth : α
  curFeedback : α
  curMix : α

/-- The DSP members of `SwayAudioProcessor`.  `delayLines b pos` is
`delayLines[b][pos]`, `phaserStages ch s` is `phaserStages[ch][s].z1`, `rng k`
is the `k`-th value the uniform distribution on `[-1,1]` will draw next. -/
structure State (α : Type) where
  currentSampleRate : α
  totalNumInputChannels : Nat
  totalNumOutputChannels : Nat
  delayLines : Nat → Int → α
  writePos : Int
  phaserStages : Nat → Nat → α
  lfoPhase : Nat → α
  rng : Nat → α
  randomLfoValue : Nat → α
  randomLfoTarget : Nat → α
  lastRandomPhase : α
  feedbackSample : Nat → α

/-- A `juce::AudioBuffer<float>`: `data ch i` is sample `i` of channel `ch`. -/
structure AudioBuffer (α : Type) where
  numChannels : Nat
  numSamples : Nat
  data : Nat → Nat → α

variable {α : Type}

/-- The constant `kMaxVoices`. -/
def kMaxVoices : Nat := 8

/-- The constant `kMaxDelaySize`. -/
def kMaxDelaySize : Int := 4096

/-- The number of delay buffers, `kMaxVoices * 2` (the outer `std::array` size). -/
def numDelayLines : Nat := kMaxVoices * 2

/-- The number of allpass stages per channel (the inner `std::array` size). -/
def kMaxStages : Nat := 12

/-- Store into one slot of an array indexed by `Nat`. -/
def setAt (f : Nat → α) (i : Nat) (v : α) : Nat → α :=
  fun j => if j = i then v else f j

/-- Store `delayLines[b][pos] = v`. -/
def setDelay (d : Nat → Int → α) (b : Nat) (pos : Int) (v : α) : Nat → Int → α :=
  fun b2 pos2 => if b2 = b ∧ pos2 = pos then v else d b2 pos2

/-- Store `phaserStages[ch][s].z1 = v`. -/
def setStage (z : Nat → Nat → α) (ch s : Nat) (v : α) : Nat → Nat → α :=
  fun ch2 s2 => if ch2 = ch ∧ s2 = s then v else z ch2 s2

/-- Store one sample of an audio buffer. -/
def AudioBuffer.setSample (buf : AudioBuffer α) (ch i : Nat) (v : α) : AudioBuffer α :=
  { buf with data := fun ch2 i2 => if ch2 = ch ∧ i2 = i then v else buf.data ch2 i2 }

/-- The call `buffer.clear (ch, 0, numSamples)`. -/
def AudioBuffer.clearChannel [Zero α] (buf : AudioBuffer α) (ch : Nat) : AudioBuffer α :=
  { buf with data := fun ch2 i2 => if ch2 = ch ∧ i2 < buf.numSamples then 0 else buf.data ch2 i2 }

section Field

variable [LinearOrderedField α] [FloorRing α]

/-- The conversion `static_cast<int>(x)`: truncation toward zero. -/
def toInt (x : α) : Int := if 0 ≤ x then ⌊x⌋ else ⌈x⌉

/-- The function `std::fmod`: the remainder of `x / y` with the quotient
truncated toward zero. -/
def fmod (x y : α) : α := x - y * ((toInt (x / y) : Int) : α)

/-- The method `AllpassStage::process`: returns `(output, new z1)`. -/
def AllpassStage.process (z1 input coeff : α) : α × α :=
  let output := -input * coeff + z1
  (output, output * coeff + input)

/-- The method `getSineLFO`. -/
def getSineLFO (m : MathFns α) (phase : α) : α := m.sin (phase * (2 * m.pi))

/-- The method `getTriangleLFO`. -/
def getTriangleLFO (phase : α) : α := 4 * |phase - 1 / 2| - 1

/-- The method `getSquareLFO`. -/
def getSquareLFO (phase : α) : α := if phase < 1 / 2 then 1 else -1

/-- The method `getRandomLFO`: returns the value and the updated state. -/
def getRandomLFO (phase : α) (channel : Nat) (st : State α) : α × State α :=
  let st1 : State α :=
    if phase < st.lastRandomPhase then
      { st with randomLfoTarget := setAt st.randomLfoTarget channel (st.rng 0),
                rng := fun k => st.rng (k + 1) }
    else st
  let st2 : State α := { st1 with lastRandomPhase := phase }
  let v := st2.randomLfoValue channel
    + (st2.randomLfoTarget channel - st2.randomLfoValue channel) * (1 / 100)
  (v, { st2 with randomLfoValue := setAt st2.randomLfoValue channel v })

/-- The method `prepareToPlay` (the smoothers are library objects and are not
part of the state). -/
def prepareToPlay (sampleRate : α) (st : State α) : State α :=
  { st with
    currentSampleRate := sampleRate
    delayLines := fun _ _ => 0
    writePos := 0
    phaserStages := fun _ _ => 0
    lfoPhase := fun _ => 0
    randomLfoValue := fun _ => 0
    randomLfoTarget := fun _ => 0
    lastRandomPhase := 0
    feedbackSample := fun _ => 0 }

/-- The `switch (modeVal)` selecting `(minDelay, maxDelay)` in milliseconds. -/
def delayRange (modeVal : Int) : α × α :=
  if modeVal = 0 then (7, 30)
  else if modeVal = 1 then (1 / 10, 10)
  else if modeVal = 3 then (5, 25)
  else (1, 10)

/-- The local `lfoFreq = 0.01f * std::pow (2000.0f, curRate / 100.0f)`. -/
def lfoFreq (m : MathFns α) (curRate : α) : α := 1 / 100 * m.pow 2000 (curRate / 100)

/-- The local `lfoInc = lfoFreq / sampleRate`. -/
def lfoInc (m : MathFns α) (sampleRate curRate : α) : α := lfoFreq m curRate / sampleRate

/-- The `switch (shapeVal)` computing `(lfoL, lfoR)`; only the Random shape
changes the state. -/
def lfoValues (m : MathFns α) (shapeVal : Int) (st : State α) : (α × α) × State α :=
  if shapeVal = 0 then ((getSineLFO m (st.lfoPhase 0), getSineLFO m (st.lfoPhase 1)), st)
  else if shapeVal = 1 then ((getTriangleLFO (st.lfoPhase 0), getTriangleLFO (st.lfoPhase 1)), st)
  else if shapeVal = 2 then ((getSquareLFO (st.lfoPhase 0), getSquareLFO (st.lfoPhase 1)), st)
  else if shapeVal = 3 then
    let r0 := getRandomLFO (st.lfoPhase 0) 0 st
    let r1 := getRandomLFO (r0.2.lfoPhase 1) 1 r0.2
    ((r0.1, r1.1), r1.2)
  else ((getSineLFO m (st.lfoPhase 0), getSineLFO m (st.lfoPhase 0)), st)

/-- The four statements under "Update LFO phases with stereo offset", on the
pair `(lfoPhase[0], lfoPhase[1])`; the old `lfoPhase[1]` is overwritten. -/
def advancePhase (inc stereoPhaseVal : α) (phase0 : α) : α × α :=
  let p0 := phase0 + inc
  let p0 := if p0 ≥ 1 then p0 - 1 else p0
  let p1 := p0 + stereoPhaseVal
  let p1 := if p1 ≥ 1 then p1 - 1 else p1
  (p0, p1)

/-- The loop `while (readPos < 0) readPos += kMaxDelaySize`. -/
def wrapNegative {α : Type} [LinearOrderedField α] [FloorRing α] (readPos : α) : α :=
  if readPos < 0 then wrapNegative (readPos + 4096) else readPos
termination_by Int.toNat ⌈-readPos / 4096⌉
decreasing_by
  have h1 : -(readPos + 4096) / 4096 = -readPos / 4096 - 1 := by ring
  have h2 : (0 : α) < -readPos / 4096 := by
    apply div_pos
    · linarith
    · norm_num
  have h3 : 0 < ⌈-readPos / 4096⌉ := Int.ceil_pos.mpr h2
  rw [h1, Int.ceil_sub_one]
  omega

/-- The locals `(idx, idx1, frac)` of one interpolated read, from the write
cursor and the delay in samples. -/
def readIndex (writePos : Int) (delaySamples : α) : Int × Int × α :=
  let readPos := wrapNegative ((writePos : α) - delaySamples)
  let idx := Int.tmod (toInt readPos) kMaxDelaySize
  let idx1 := Int.tmod (idx + 1) kMaxDelaySize
  let frac := readPos - (⌊readPos⌋ : α)
  (idx, idx1, frac)

/-- The local `voiceLfoL` / `voiceLfoR` of voice `v` for the channel whose LFO
phase is `phase`. -/
def voiceLfo (m : MathFns α) (voicesVal : Int) (spreadVal phase : α) (v : Nat) : α :=
  let voiceOffset := (v : α) / (voicesVal : α)
  getSineLFO m (fmod (phase + voiceOffset * spreadVal) 1)

/-- The local `delayMsL` / `delayMsR`. -/
def delayMs (modeVal : Int) (voiceLfoVal curDepth : α) : α :=
  (delayRange modeVal).1
    + ((delayRange modeVal).2 - (delayRange modeVal).1) * (1 / 2 + voiceLfoVal * curDepth * (1 / 2))

/-- The local `delaySamplesL` / `delaySamplesR`. -/
def delaySamples (modeVal : Int) (voiceLfoVal curDepth sampleRate : α) : α :=
  delayMs modeVal voiceLfoVal curDepth * sampleRate / 1000

/-- The modulated delay in samples of voice `v` on channel `ch` at the current
state (phases already advanced): the local `delaySamplesL` / `delaySamplesR`. -/
def voiceDelay (m : MathFns α) (p : Params α) (cur : Smoothed α) (st : State α)
    (v ch : Nat) : α :=
  delaySamples p.modeVal (voiceLfo m p.voicesVal p.spreadVal (st.lfoPhase ch) v)
    cur.curDepth st.currentSampleRate

/-- The read indices and fraction of voice `v` on channel `ch`, as computed in
the read loop. -/
def voiceRead (m : MathFns α) (p : Params α) (cur : Smoothed α) (st : State α)
    (v ch : Nat) : Int × Int × α :=
  readIndex st.writePos (voiceDelay m p cur st v ch)

/-- One interpolated read of buffer `b` for voice `v`, channel `ch`. -/
def voiceTap (m : MathFns α) (p : Params α) (cur : Smoothed α) (st : State α)
    (v ch b : Nat) : α :=
  let r := voiceRead m p cur st v ch
  st.delayLines b r.1 * (1 - r.2.2) + st.delayLines b r.2.1 * r.2.2

/-- The values of `v` visited by `for (int v = 0; v < voicesVal; ++v)`. -/
def voiceIndices (voicesVal : Int) : List Nat := List.range voicesVal.toNat

/-- The values of `s` visited by `for (int s = 0; s < stagesVal; ++s)`. -/
def stageIndices (stagesVal : Int) : List Nat := List.range stagesVal.toNat

/-- The loop "Write to delay lines": the buffers after it (the loop changes no
other member). -/
def writeVoices (p : Params α) (cur : Smoothed α) (inL inR : α) (st : State α) :
    Nat → Int → α :=
  (voiceIndices p.voicesVal).foldl
    (fun d v =>
      let d1 := setDelay d (v * 2) st.writePos (inL + st.feedbackSample 0 * cur.curFeedback)
      setDelay d1 (v * 2 + 1) st.writePos (inR + st.feedbackSample 1 * cur.curFeedback))
    st.delayLines

/-- The loop "Read from delay lines with modulation": the sums `(wetL, wetR)`
before normalisation. -/
def readVoices (m : MathFns α) (p : Params α) (cur : Smoothed α) (st : State α) : α × α :=
  (voiceIndices p.voicesVal).foldl
    (fun w v =>
      (w.1 + voiceTap m p cur st v 0 (v * 2), w.2 + voiceTap m p cur st v 1 (v * 2 + 1)))
    (0, 0)

/-- The `else` branch of the mode test (Chorus, Flanger, Ensemble): returns
`(wetL, wetR)` and the state with the buffers and feedback samples updated. -/
def delayEngine (m : MathFns α) (p : Params α) (cur : Smoothed α) (inL inR : α)
    (st : State α) : (α × α) × State α :=
  let st1 : State α := { st with delayLines := writeVoices p cur inL inR st }
  let w := readVoices m p cur st1
  let wetL := w.1 / (p.voicesVal : α)
  let wetR := w.2 / (p.voicesVal : α)
  ((wetL, wetR), { st1 with feedbackSample := setAt (setAt st1.feedbackSample 0 wetL) 1 wetR })

/-- The allpass coefficient `(tan (pi * freq / sampleRate) - 1) / (tan (..) + 1)`. -/
def allpassCoeff (m : MathFns α) (freq sampleRate : α) : α :=
  (m.tan (m.pi * freq / sampleRate) - 1) / (m.tan (m.pi * freq / sampleRate) + 1)

/-- The local `freqL` / `freqR` of stage `s` for the LFO value `lfo`. -/
def stageFreq (m : MathFns α) (p : Params α) (cur : Smoothed α) (lfo : α) (s : Nat) : α :=
  let minFreq : α := 200
  let maxFreq : α := 4000 + p.colorVal * 4000
  let stagePhase := (s : α) / (p.stagesVal : α)
  let md := lfo * m.sin (stagePhase * m.pi)
  minFreq + (maxFreq - minFreq) * (1 / 2 + md * cur.curDepth * (1 / 2))

/-- The `if (modeVal == 2)` branch (Phaser): returns `(wetL, wetR)` and the
state with the allpass states and feedback samples updated. -/
def phaserEngine (m : MathFns α) (p : Params α) (cur : Smoothed α) (lfoL lfoR inputL inputR : α)
    (st : State α) : (α × α) × State α :=
  let inL := inputL + st.feedbackSample 0 * cur.curFeedback * (7 / 10)
  let inR := inputR + st.feedbackSample 1 * cur.curFeedback * (7 / 10)
  let r := (stageIndices p.stagesVal).foldl
    (fun (acc : (α × α) × (Nat → Nat → α)) s =>
      let coeffL := allpassCoeff m (stageFreq m p cur lfoL s) st.currentSampleRate
      let coeffR := allpassCoeff m (stageFreq m p cur lfoR s) st.currentSampleRate
      let oL := AllpassStage.process (acc.2 0 s) acc.1.1 coeffL
      let z1 := setStage acc.2 0 s oL.2
      let oR := AllpassStage.process (z1 1 s) acc.1.2 coeffR
      ((oL.1, oR.1), setStage z1 1 s oR.2))
    ((inL, inR), st.phaserStages)
  (r.1, { st with phaserStages := r.2,
                  feedbackSample := setAt (setAt st.feedbackSample 0 r.1.1) 1 r.1.2 })

/-- The block "Apply warmth (soft saturation)". -/
def applyWarmth (m : MathFns α) (warmthVal : α) (wet : α × α) : α × α :=
  if warmthVal > 1 / 100 then
    let drive := 1 + warmthVal * 3
    (m.tanh (wet.1 * drive) / drive, m.tanh (wet.2 * drive) / drive)
  else wet

/-- The body of the "Stereo width" block: the mid/side transform. -/
def midSide (widthVal : α) (wet : α × α) : α × α :=
  let mid := (wet.1 + wet.2) * (1 / 2)
  let side := (wet.1 - wet.2) * (1 / 2) * widthVal
  (mid + side, mid - side)

/-- The block "Stereo width" with its guard. -/
def applyWidth (numChannels : Nat) (widthVal : α) (wet : α × α) : α × α :=
  if numChannels = 2 ∧ |widthVal - 1| > 1 / 100 then midSide widthVal wet else wet

/-- The channel the pointers `inputR` / `outputR` refer to: channel 1 when the
buffer has more than one channel, otherwise channel 0 (aliasing the left). -/
def rightChannel (numChannels : Nat) : Nat := if numChannels > 1 then 1 else 0

/-- The state after the LFO values are taken and the phases advanced (the part
of one loop iteration before the mode test), with `(lfoL, lfoR)`. -/
def lfoStep (m : MathFns α) (p : Params α) (cur : Smoothed α) (st : State α) :
    (α × α) × State α :=
  let l := lfoValues m p.shapeVal st
  let ph := advancePhase (lfoInc m st.currentSampleRate cur.curRate) p.stereoPhaseVal
    (l.2.lfoPhase 0)
  (l.1, { l.2 with lfoPhase := setAt (setAt l.2.lfoPhase 0 ph.1) 1 ph.2 })

/-- The wet pair of one loop iteration before warmth and width, with the state
after the engine ran (write cursor not yet advanced). -/
def engineStep (m : MathFns α) (p : Params α) (cur : Smoothed α) (inL inR : α)
    (st : State α) : (α × α) × State α :=
  let l := lfoStep m p cur st
  if p.modeVal = 2 then phaserEngine m p cur l.1.1 l.1.2 inL inR l.2
  else delayEngine m p cur inL inR l.2

/-- The wet pair `(wetL, wetR)` of one loop iteration at the "Mix" statement. -/
def wetPair (m : MathFns α) (p : Params α) (cur : Smoothed α) (numChannels : Nat)
    (inL inR : α) (st : State α) : α × α :=
  applyWidth numChannels p.widthVal (applyWarmth m p.warmthVal (engineStep m p cur inL inR st).1)

/-- One iteration `i` of the sample loop of `processBlock`. -/
def processSample (m : MathFns α) (p : Params α) (cur : Smoothed α) (i : Nat)
    (bs : AudioBuffer α × State α) : AudioBuffer α × State α :=
  let buf := bs.1
  let chR := rightChannel buf.numChannels
  let e := engineStep m p cur (buf.data 0 i) (buf.data chR i) bs.2
  let wet := wetPair m p cur buf.numChannels (buf.data 0 i) (buf.data chR i) bs.2
  let buf1 := buf.setSample 0 i (buf.data 0 i * (1 - cur.curMix) + wet.1 * cur.curMix)
  let buf2 := buf1.setSample chR i (buf1.data chR i * (1 - cur.curMix) + wet.2 * cur.curMix)
  (buf2, { e.2 with writePos := Int.tmod (e.2.writePos + 1) kMaxDelaySize })

/-- The first `n` iterations of the sample loop; `cur i` are the smoothed
values of iteration `i`. -/
def processLoop (m : MathFns α) (p : Params α) (cur : Nat → Smoothed α) :
    Nat → AudioBuffer α × State α → AudioBuffer α × State α
  | 0, bs => bs
  | n + 1, bs => processSample m p (cur n) n (processLoop m p cur n bs)

/-- The loop clearing the output channels that have no input,
`for (i = getTotalNumInputChannels (); i < getTotalNumOutputChannels (); ++i)`. -/
def clearExtraOutputs (st : State α) (buf : AudioBuffer α) : AudioBuffer α :=
  (List.range (st.totalNumOutputChannels - st.totalNumInputChannels)).foldl
    (fun b k => b.clearChannel (st.totalNumInputChannels + k)) buf

/-- The method `processBlock` (the telemetry stores and the RMS measurement do
not touch the buffer or the DSP state and are left out). -/
def processBlock (m : MathFns α) (p : Params α) (cur : Nat → Smoothed α)
    (buf : AudioBuffer α) (st : State α) : AudioBuffer α × State α :=
  let buf0 := clearExtraOutputs st buf
  if p.bypassVal then (buf0, st)
  else processLoop m p cur buf0.numSamples (buf0, st)

/-- The DSP members as the constructor and the default member initialisers
leave them: stereo in and out, everything zero, sample rate 44100; `rng` is the
stream the seeded generator will produce. -/
def initialState (rng : Nat → α) : State α where
  currentSampleRate := 44100
  totalNumInputChannels := 2
  totalNumOutputChannels := 2
  delayLines := fun _ _ => 0
  writePos := 0
  phaserStages := fun _ _ => 0
  lfoPhase := fun _ => 0
  rng := rng
  randomLfoValue := fun _ => 0
  randomLfoTarget := fun _ => 0
  lastRandomPhase := 0
  feedbackSample := fun _ => 0

/-- A sequence of `processBlock` calls, each with its own parameter snapshot,
smoothed values and buffer; returns the final DSP state. -/
def runBlocks (m : MathFns α) (st : State α) :
    List (Params α × (Nat → Smoothed α) × AudioBuffer α) → State α
  | [] => st
  | b :: bs => runBlocks m (processBlock m b.1 b.2.1 b.2.2 st).2 bs

/-- The DSP state at the start of iteration `i` of the sample loop. -/
def stateBefore (m : MathFns α) (p : Params α) (cur : Nat → Smoothed α)
    (buf : AudioBuffer α) (st : State α) (i : Nat) : State α :=
  (processLoop m p cur i (buf, st)).2

/-- The wet pair `(wetL, wetR)` that iteration `i` mixes into the output when
the block `buf` is processed from state `st`. -/
def wetAt (m : MathFns α) (p : Params α) (cur : Nat → Smoothed α)
    (buf : AudioBuffer α) (st : State α) (i : Nat) : α × α :=
  wetPair m p (cur i) buf.numChannels (buf.data 0 i)
    (buf.data (rightChannel buf.numChannels) i) (stateBefore m p cur buf st i)

/-! ### Predicates and reference quantities used in the statements -/

/-- Both LFO phases lie in `[0,1)`. -/
def PhaseInRange (st : State α) : Prop :=
  (0 ≤ st.lfoPhase 0 ∧ st.lfoPhase 0 < 1) ∧ (0 ≤ st.lfoPhase 1 ∧ st.lfoPhase 1 < 1)

/-- The ranges of the LFO controls of one block: smoothed rate in `[0,100]` at
every sample and stereo phase offset in `[0,0.5]`. -/
def LfoControlsInRange (p : Params α) (cur : Nat → Smoothed α) : Prop :=
  (0 ≤ p.stereoPhaseVal ∧ p.stereoPhaseVal ≤ 1 / 2) ∧
    ∀ i, 0 ≤ (cur i).curRate ∧ (cur i).curRate ≤ 100

/-- The input sample `x[k]` of channel `ch`, with `x[k] = 0` for `k < 0`. -/
def delayedInput (buf : AudioBuffer α) (ch : Nat) (k : Int) : α :=
  if k < 0 then 0 else buf.data ch k.toNat

/-- The mid-range Chorus delay of 18.5 ms expressed in samples. -/
def chorusDelay (sampleRate : α) : α := 37 / 2 * sampleRate / 1000

/-- The parameter snapshot of the registered defaults in `ParameterIDs.h`
(Chorus, sine, stereo offset 50 %, 3 voices, warmth 20 %, 6 stages, width
100 %, not bypassed). -/
def defaultParams : Params α where
  modeVal := 0
  shapeVal := 0
  stereoPhaseVal := 1 / 4
  voicesVal := 3
  spreadVal := 1 / 2
  warmthVal := 1 / 5
  stagesVal := 6
  colorVal := 1 / 2
  widthVal := 1
  bypassVal := false

/-- The smoothed values settled at the registered defaults (rate 30, depth
50 %, feedback 30 %, mix 50 %). -/
def defaultSmoothed : Smoothed α where
  curRate := 30
  curDepth := 1 / 2
  curFeedback := 3 / 10
  curMix := 1 / 2

/-- The input of channel `ch` delayed by `d` samples and read with linear
interpolation at sample index `n`:
`(1 - f) * x[n - ceil d] + f * x[n - ceil d + 1]` with `f = ceil d - d`. -/
def interpolatedDelay (buf : AudioBuffer α) (ch : Nat) (d : α) (n : Nat) : α :=
  (1 - ((⌈d⌉ : α) - d)) * delayedInput buf ch ((n : Int) - ⌈d⌉)
    + ((⌈d⌉ : α) - d) * delayedInput buf ch ((n : Int) - ⌈d⌉ + 1)

/-- The snapshot of the "Chorus identity at depth 0" scenario: Chorus, one
voice, saturation off, width 100 %, the other members at their defaults. -/
def chorusScenarioParams : Params α :=
  { (defaultParams : Params α) with modeVal := 0, voicesVal := 1, warmthVal := 0, widthVal := 1 }

/-- The smoothed values of that scenario, settled at depth 0, feedback 0 and
the given mix. -/
def chorusScenarioSmoothed (mix : α) : Smoothed α where
  curRate := 30
  curDepth := 0
  curFeedback := 0
  curMix := mix

/-- A stereo buffer holding the samples `xs` (left) and `ys` (right). -/
def stereoBuffer (xs ys : List α) : AudioBuffer α where
  numChannels := 2
  numSamples := xs.length
  data := fun ch i => if ch = 0 then xs.getD i 0 else if ch = 1 then ys.getD i 0 else 0

/-- A mono buffer holding the samples `xs`. -/
def monoBuffer (xs : List α) : AudioBuffer α where
  numChannels := 1
  numSamples := xs.length
  data := fun ch i => if ch = 0 then xs.getD i 0 else 0

/-- The wet pair of iteration `i` as the engine leaves it, before the warmth
and width stages, when the block `buf` is processed from state `st`. -/
def engineAt (m : MathFns α) (p : Params α) (cur : Nat → Smoothed α)
    (buf : AudioBuffer α) (st : State α) (i : Nat) : α × α :=
  (engineStep m p (cur i) (buf.data 0 i) (buf.data (rightChannel buf.numChannels) i)
    (stateBefore m p cur buf st i)).1

/-- A sequence of `getRandomLFO` calls, each given as `(phase, channel)`;
returns the state after the last call. -/
def randomCalls (st : State α) : List (α × Nat) → State α
  | [] => st
  | c :: cs => randomCalls (getRandomLFO c.1 c.2 st).2 cs

/-- Two states agree on the members the delay engine and the phase advance
read or write: sample rate, delay buffers, write cursor, LFO phases and
feedback samples. -/
def SameDelayState (a b : State α) : Prop :=
  a.currentSampleRate = b.currentSampleRate ∧ a.delayLines = b.delayLines ∧
    a.writePos = b.writePos ∧ a.lfoPhase = b.lfoPhase ∧
    a.feedbackSample = b.feedbackSample

/-- The held random-LFO values and targets of every channel and every value
the generator will draw lie in `[-1,1]`. -/
def RandomInRange (st : State α) : Prop :=
  (∀ c, -1 ≤ st.randomLfoValue c ∧ st.randomLfoValue c ≤ 1) ∧
    (∀ c, -1 ≤ st.randomLfoTarget c ∧ st.randomLfoTarget c ≤ 1) ∧
    (∀ k, -1 ≤ st.rng k ∧ st.rng k ≤ 1)

end Field

/-! ## Theorems -/

section Proofs

set_option linter.unusedSectionVars false
set_option linter.unusedVariables false

variable [LinearOrderedField α] [FloorRing α]

/-! ### Buffer and loop bookkeeping -/

theorem clearExtraOutputs_eq (st : State α) (buf : AudioBuffer α)
    (h : st.totalNumOutputChannels ≤ st.totalNumInputChannels) :
    clearExtraOutputs st buf = buf := by
  unfold clearExtraOutputs
  rw [Nat.sub_eq_zero_of_le h]
  rfl

theorem processSample_numChannels (m : MathFns α) (p : Params α) (c : Smoothed α) (i : Nat)
    (bs : AudioBuffer α × State α) :
    (processSample m p c i bs).1.numChannels = bs.1.numChannels := rfl

theorem processLoop_numChannels (m : MathFns α) (p : Params α) (cur : Nat → Smoothed α)
    (n : Nat) (bs : AudioBuffer α × State α) :
    (processLoop m p cur n bs).1.numChannels = bs.1.numChannels := by
  induction n with
  | zero => rfl
  | succ k ih => rw [processLoop, processSample_numChannels, ih]

theorem processSample_data_ne (m : MathFns α) (p : Params α) (c : Smoothed α) (i : Nat)
    (bs : AudioBuffer α × State α) (ch j : Nat) (h : j ≠ i) :
    (processSample m p c i bs).1.data ch j = bs.1.data ch j := by
  simp [processSample, AudioBuffer.setSample, h]

theorem processLoop_data_ge (m : MathFns α) (p : Params α) (cur : Nat → Smoothed α)
    (n : Nat) (bs : AudioBuffer α × State α) (ch j : Nat) (h : n ≤ j) :
    (processLoop m p cur n bs).1.data ch j = bs.1.data ch j := by
  induction n with
  | zero => rfl
  | succ k ih =>
    rw [processLoop, processSample_data_ne _ _ _ _ _ _ _ (by omega), ih (by omega)]

theorem processLoop_data_lt (m : MathFns α) (p : Params α) (cur : Nat → Smoothed α)
    (n : Nat) (bs : AudioBuffer α × State α) (ch i : Nat) (h : i < n) :
    (processLoop m p cur n bs).1.data ch i
      = (processSample m p (cur i) i (processLoop m p cur i bs)).1.data ch i := by
  induction n with
  | zero => omega
  | succ k ih =>
    rcases Nat.lt_succ_iff_lt_or_eq.mp h with h1 | h1
    · rw [processLoop, processSample_data_ne _ _ _ _ _ _ _ (by omega), ih h1]
    · subst h1; rfl

/-- In a stereo block both channels receive the dry/wet mix of their own input. -/
theorem processLoop_stereo (m : MathFns α) (p : Params α) (cur : Nat → Smoothed α)
    (buf : AudioBuffer α) (st : State α) (n i : Nat) (h2 : buf.numChannels = 2) (hi : i < n) :
    (processLoop m p cur n (buf, st)).1.data 0 i
        = buf.data 0 i * (1 - (cur i).curMix) + (wetAt m p cur buf st i).1 * (cur i).curMix ∧
      (processLoop m p cur n (buf, st)).1.data 1 i
        = buf.data 1 i * (1 - (cur i).curMix) + (wetAt m p cur buf st i).2 * (cur i).curMix := by
  have hc := processLoop_numChannels m p cur i (buf, st)
  have hd : ∀ ch, (processLoop m p cur i (buf, st)).1.data ch i = buf.data ch i :=
    fun ch => processLoop_data_ge m p cur i (buf, st) ch i (le_refl i)
  simp only [] at hc
  rw [processLoop_data_lt _ _ _ _ _ _ _ hi, processLoop_data_lt _ _ _ _ _ _ _ hi]
  simp [processSample, AudioBuffer.setSample, wetAt, stateBefore, rightChannel, hc, h2, hd]

/-- In a mono block the right pointers alias the left ones: the single channel
is mixed twice, the second time with the first result in place of the input. -/
theorem processLoop_mono (m : MathFns α) (p : Params α) (cur : Nat → Smoothed α)
    (buf : AudioBuffer α) (st : State α) (n i : Nat) (h1 : buf.numChannels = 1) (hi : i < n) :
    (processLoop m p cur n (buf, st)).1.data 0 i
        = (buf.data 0 i * (1 - (cur i).curMix) + (wetAt m p cur buf st i).1 * (cur i).curMix)
            * (1 - (cur i).curMix)
          + (wetAt m p cur buf st i).2 * (cur i).curMix := by
  have hc := processLoop_numChannels m p cur i (buf, st)
  have hd : ∀ ch, (processLoop m p cur i (buf, st)).1.data ch i = buf.data ch i :=
    fun ch => processLoop_data_ge m p cur i (buf, st) ch i (le_refl i)
  simp only [] at hc
  rw [processLoop_data_lt _ _ _ _ _ _ _ hi]
  simp [processSample, AudioBuffer.setSample, wetAt, stateBefore, rightChannel, hc, h1, hd]

/-- A block that is not bypassed and has as many inputs as outputs is the
sample loop run over the whole buffer. -/
theorem processBlock_eq_loop (m : MathFns α) (p : Params α) (cur : Nat → Smoothed α)
    (buf : AudioBuffer α) (st : State α)
    (hch : st.totalNumInputChannels = st.totalNumOutputChannels)
    (hb : p.bypassVal = false) :
    processBlock m p cur buf st = processLoop m p cur buf.numSamples (buf, st) := by
  unfold processBlock
  simp [hb, clearExtraOutputs_eq st buf (le_of_eq hch.symm)]

/-! ### Frame lemmas: which members each part of an iteration leaves alone -/

theorem getRandomLFO_frame (phase : α) (channel : Nat) (st : State α) :
    (getRandomLFO phase channel st).2.lfoPhase = st.lfoPhase ∧
    (getRandomLFO phase channel st).2.currentSampleRate = st.currentSampleRate ∧
    (getRandomLFO phase channel st).2.writePos = st.writePos ∧
    (getRandomLFO phase channel st).2.delayLines = st.delayLines ∧
    (getRandomLFO phase channel st).2.feedbackSample = st.feedbackSample ∧
    (getRandomLFO phase channel st).2.phaserStages = st.phaserStages := by
  unfold getRandomLFO
  by_cases h : phase < st.lastRandomPhase <;> simp [h]

theorem lfoValues_frame (m : MathFns α) (shapeVal : Int) (st : State α) :
    (lfoValues m shapeVal st).2.lfoPhase = st.lfoPhase ∧
    (lfoValues m shapeVal st).2.currentSampleRate = st.currentSampleRate ∧
    (lfoValues m shapeVal st).2.writePos = st.writePos ∧
    (lfoValues m shapeVal st).2.delayLines = st.delayLines ∧
    (lfoValues m shapeVal st).2.feedbackSample = st.feedbackSample ∧
    (lfoValues m shapeVal st).2.phaserStages = st.phaserStages := by
  obtain ⟨a1, a2, a3, a4, a5, a6⟩ := getRandomLFO_frame (st.lfoPhase 0) 0 st
  obtain ⟨b1, b2, b3, b4, b5, b6⟩ := getRandomLFO_frame (st.lfoPhase 1) 1
    (getRandomLFO (st.lfoPhase 0) 0 st).2
  simp only [lfoValues, a1]
  split_ifs <;> simp only [and_self, b1, b2, b3, b4, b5, b6, a1, a2, a3, a4, a5, a6]

theorem lfoStep_frame (m : MathFns α) (p : Params α) (cur : Smoothed α) (st : State α) :
    (lfoStep m p cur st).2.lfoPhase
        = setAt (setAt st.lfoPhase 0
            (advancePhase (lfoInc m st.currentSampleRate cur.curRate) p.stereoPhaseVal
              (st.lfoPhase 0)).1) 1
            (advancePhase (lfoInc m st.currentSampleRate cur.curRate) p.stereoPhaseVal
              (st.lfoPhase 0)).2 ∧
    (lfoStep m p cur st).2.currentSampleRate = st.currentSampleRate ∧
    (lfoStep m p cur st).2.writePos = st.writePos ∧
    (lfoStep m p cur st).2.delayLines = st.delayLines ∧
    (lfoStep m p cur st).2.feedbackSample = st.feedbackSample ∧
    (lfoStep m p cur st).2.phaserStages = st.phaserStages := by
  obtain ⟨a1, a2, a3, a4, a5, a6⟩ := lfoValues_frame m p.shapeVal st
  simp only [lfoStep, a1, a2, a3, a4, a5, a6, and_self]

theorem engineStep_frame (m : MathFns α) (p : Params α) (cur : Smoothed α) (inL inR : α)
    (st : State α) :
    (engineStep m p cur inL inR st).2.lfoPhase = (lfoStep m p cur st).2.lfoPhase ∧
    (engineStep m p cur inL inR st).2.currentSampleRate = st.currentSampleRate ∧
    (engineStep m p cur inL inR st).2.writePos = st.writePos := by
  obtain ⟨-, a2, a3, -, -, -⟩ := lfoStep_frame m p cur st
  unfold engineStep
  by_cases h : p.modeVal = 2
  · simp only [h, if_true, phaserEngine, a2, a3, and_self]
  · simp only [h, if_false, delayEngine, a2, a3, and_self]

theorem processSample_frame (m : MathFns α) (p : Params α) (cur : Smoothed α) (i : Nat)
    (bs : AudioBuffer α × State α) :
    (processSample m p cur i bs).2.lfoPhase = (lfoStep m p cur bs.2).2.lfoPhase ∧
    (processSample m p cur i bs).2.currentSampleRate = bs.2.currentSampleRate ∧
    (processSample m p cur i bs).2.writePos = Int.tmod (bs.2.writePos + 1) kMaxDelaySize := by
  obtain ⟨a1, a2, a3⟩ := engineStep_frame m p cur (bs.1.data 0 i)
    (bs.1.data (rightChannel bs.1.numChannels) i) bs.2
  simp only [processSample, a1, a2, a3, and_self]

/-! ### The read position -/

theorem wrapNegative_of_nonneg (x : α) (h : 0 ≤ x) : wrapNegative x = x := by
  rw [wrapNegative, if_neg (not_lt.mpr h)]

theorem wrapNegative_of_neg (x : α) (h : x < 0) : wrapNegative x = wrapNegative (x + 4096) := by
  rw [wrapNegative, if_pos h]

theorem wrapNegative_nonneg (x : α) : 0 ≤ wrapNegative x := by
  induction x using wrapNegative.induct with
  | case1 x h ih => rw [wrapNegative_of_neg x h]; exact ih
  | case2 x h => rw [wrapNegative_of_nonneg x (not_lt.mp h)]; exact not_lt.mp h

theorem toInt_of_nonneg (x : α) (h : 0 ≤ x) : toInt x = ⌊x⌋ := by
  rw [toInt, if_pos h]

theorem tmod_delay_bounds (a : Int) (h : 0 ≤ a) :
    0 ≤ Int.tmod a kMaxDelaySize ∧ Int.tmod a kMaxDelaySize < kMaxDelaySize :=
  ⟨Int.tmod_nonneg _ h, Int.tmod_lt_of_pos a (by decide)⟩

theorem readIndex_bounds (w : Int) (d : α) :
    (0 ≤ (readIndex w d).1 ∧ (readIndex w d).1 < kMaxDelaySize) ∧
      (0 ≤ (readIndex w d).2.1 ∧ (readIndex w d).2.1 < kMaxDelaySize) := by
  have h0 : 0 ≤ toInt (wrapNegative ((w : α) - d)) := by
    rw [toInt_of_nonneg _ (wrapNegative_nonneg _)]
    exact Int.floor_nonneg.mpr (wrapNegative_nonneg _)
  have h1 := tmod_delay_bounds _ h0
  have h2 := tmod_delay_bounds (Int.tmod (toInt (wrapNegative ((w : α) - d))) kMaxDelaySize + 1)
    (by omega)
  exact ⟨h1, h2⟩

theorem floor_int_sub_ceil (w : Int) (d : α) : ⌊(w : α) - d⌋ = w - ⌈d⌉ := by
  rw [sub_eq_add_neg, Int.floor_int_add, Int.floor_neg]
  ring

/-- The wrapped read position when the delay is at most the capacity: the
capacity is added at most once. -/
theorem wrapNegative_sub (w : Int) (d : α) (hw0 : 0 ≤ w) (hd1 : d ≤ 4096) :
    wrapNegative ((w : α) - d) = if (w : α) - d < 0 then (w : α) - d + 4096 else (w : α) - d := by
  by_cases h : (w : α) - d < 0
  · rw [if_pos h, wrapNegative_of_neg _ h, wrapNegative_of_nonneg]
    have : (0 : α) ≤ (w : α) := by exact_mod_cast hw0
    linarith
  · rw [if_neg h, wrapNegative_of_nonneg _ (not_lt.mp h)]

/-- The read indices and the fraction in closed form, for a cursor in range and
a delay of at most the capacity. -/
theorem readIndex_eq (w : Int) (d : α) (hw0 : 0 ≤ w) (hw1 : w < 4096) (hd0 : 0 ≤ d)
    (hd1 : ⌈d⌉ ≤ 4096) :
    readIndex w d = ((w - ⌈d⌉) % 4096, ((w - ⌈d⌉) % 4096 + 1) % 4096, (⌈d⌉ : α) - d) := by
  have hdle : d ≤ 4096 := by
    have := Int.le_ceil d
    have h2 : ((⌈d⌉ : Int) : α) ≤ 4096 := by exact_mod_cast hd1
    linarith
  have hc0 : 0 ≤ ⌈d⌉ := Int.ceil_nonneg hd0
  have hfl : ⌊(w : α) - d⌋ = w - ⌈d⌉ := floor_int_sub_ceil w d
  unfold readIndex
  simp only [wrapNegative_sub w d hw0 hdle, kMaxDelaySize]
  by_cases h : (w : α) - d < 0
  · have hnn : (0 : α) ≤ (w : α) - d + 4096 := by
      have : (0 : α) ≤ (w : α) := by exact_mod_cast hw0
      linarith
    have hfl2 : ⌊(w : α) - d + 4096⌋ = w - ⌈d⌉ + 4096 := by
      have : (w : α) - d + 4096 = ((w : α) - d) + ((4096 : Int) : α) := by push_cast; ring
      rw [this, Int.floor_add_int, hfl]
    have hneg : w - ⌈d⌉ < 0 := by
      rw [← hfl]; exact Int.floor_lt.mpr (by simpa using h)
    simp only [if_pos h, toInt_of_nonneg _ hnn, hfl2]
    have e1 : (w - ⌈d⌉ + 4096).tmod 4096 = (w - ⌈d⌉) % 4096 := by
      rw [Int.tmod_eq_emod (by omega) (by decide)]; omega
    have e2 : ((w - ⌈d⌉) % 4096 + 1).tmod 4096 = ((w - ⌈d⌉) % 4096 + 1) % 4096 := by
      rw [Int.tmod_eq_emod (by omega) (by decide)]
    rw [e1, e2]
    refine Prod.ext rfl (Prod.ext rfl ?_)
    simp only
    push_cast
    ring
  · have hnn : (0 : α) ≤ (w : α) - d := not_lt.mp h
    have hpos : 0 ≤ w - ⌈d⌉ := by
      rw [← hfl]; exact Int.floor_nonneg.mpr hnn
    simp only [if_neg h, toInt_of_nonneg _ hnn, hfl]
    have e1 : (w - ⌈d⌉).tmod 4096 = (w - ⌈d⌉) % 4096 := by
      rw [Int.tmod_eq_emod hpos (by decide)]
    have e2 : ((w - ⌈d⌉) % 4096 + 1).tmod 4096 = ((w - ⌈d⌉) % 4096 + 1) % 4096 := by
      rw [Int.tmod_eq_emod (by omega) (by decide)]
    rw [e1, e2]
    refine Prod.ext rfl (Prod.ext rfl ?_)
    simp only
    push_cast
    ring

/-! ### The LFO phase -/

theorem advancePhase_bounds (inc off ph : α) (hi0 : 0 ≤ inc) (hi1 : inc < 1)
    (ho0 : 0 ≤ off) (ho1 : off ≤ 1 / 2) (hp0 : 0 ≤ ph) (hp1 : ph < 1) :
    (0 ≤ (advancePhase inc off ph).1 ∧ (advancePhase inc off ph).1 < 1) ∧
      (0 ≤ (advancePhase inc off ph).2 ∧ (advancePhase inc off ph).2 < 1) := by
  unfold advancePhase
  simp only [ge_iff_le]
  split_ifs <;> refine ⟨⟨?_, ?_⟩, ?_, ?_⟩ <;> linarith

/-- With the real power function the LFO frequency lies in `(0, 20]` Hz for a
rate of at most 100, so the increment is below 1 above 20 Hz sample rate. -/
theorem lfoInc_real_bounds (sr rate : ℝ) (hr1 : rate ≤ 100) (hsr : 20 < sr) :
    0 < lfoInc realFns sr rate ∧ lfoInc realFns sr rate < 1 := by
  have hp : (0 : ℝ) < (2000 : ℝ) ^ (rate / 100) := Real.rpow_pos_of_pos (by norm_num) _
  have hle : (2000 : ℝ) ^ (rate / 100) ≤ (2000 : ℝ) ^ (1 : ℝ) :=
    Real.rpow_le_rpow_of_exponent_le (by norm_num) (by linarith)
  rw [Real.rpow_one] at hle
  have hs : (0 : ℝ) < sr := by linarith
  simp only [lfoInc, lfoFreq, realFns]
  constructor
  · positivity
  · rw [div_lt_one hs]
    linarith

theorem processLoop_phase (p : Params ℝ) (cur : Nat → Smoothed ℝ) (buf : AudioBuffer ℝ)
    (st : State ℝ) (n : Nat) (hsr : 20 < st.currentSampleRate) (hst : PhaseInRange st)
    (hc : LfoControlsInRange p cur) :
    PhaseInRange (processLoop realFns p cur n (buf, st)).2 ∧
      (processLoop realFns p cur n (buf, st)).2.currentSampleRate = st.currentSampleRate := by
  induction n with
  | zero => exact ⟨hst, rfl⟩
  | succ k ih =>
    obtain ⟨ih1, ih2⟩ := ih
    obtain ⟨a1, a2, -⟩ := processSample_frame realFns p (cur k) k (processLoop realFns p cur k (buf, st))
    obtain ⟨b1, -⟩ := lfoStep_frame realFns p (cur k) (processLoop realFns p cur k (buf, st)).2
    refine ⟨?_, by rw [processLoop, a2, ih2]⟩
    have hinc := lfoInc_real_bounds st.currentSampleRate (cur k).curRate (hc.2 k).2 hsr
    have hb := advancePhase_bounds (lfoInc realFns st.currentSampleRate (cur k).curRate)
      p.stereoPhaseVal ((processLoop realFns p cur k (buf, st)).2.lfoPhase 0)
      (le_of_lt hinc.1) hinc.2 hc.1.1 hc.1.2 ih1.1.1 ih1.1.2
    unfold PhaseInRange
    rw [processLoop, a1, b1, ih2]
    simpa [setAt] using hb

theorem processBlock_phase (p : Params ℝ) (cur : Nat → Smoothed ℝ) (buf : AudioBuffer ℝ)
    (st : State ℝ) (hsr : 20 < st.currentSampleRate) (hst : PhaseInRange st)
    (hc : LfoControlsInRange p cur) :
    PhaseInRange (processBlock realFns p cur buf st).2 ∧
      (processBlock realFns p cur buf st).2.currentSampleRate = st.currentSampleRate := by
  unfold processBlock
  by_cases hb : p.bypassVal = true
  · simp only [hb, if_true]
    exact ⟨hst, trivial⟩
  · simp only [hb]
    exact processLoop_phase p cur _ st _ hsr hst hc

theorem runBlocks_phase (blocks : List (Params ℝ × (Nat → Smoothed ℝ) × AudioBuffer ℝ))
    (st : State ℝ) (hsr : 20 < st.currentSampleRate) (hst : PhaseInRange st)
    (hc : ∀ b ∈ blocks, LfoControlsInRange b.1 b.2.1) :
    PhaseInRange (runBlocks realFns st blocks) ∧
      (runBlocks realFns st blocks).currentSampleRate = st.currentSampleRate := by
  induction blocks generalizing st with
  | nil => exact ⟨hst, rfl⟩
  | cons b bs ih =>
    obtain ⟨h1, h2⟩ := processBlock_phase b.1 b.2.1 b.2.2 st hsr hst (hc b (List.mem_cons_self _ _))
    have := ih (processBlock realFns b.1 b.2.1 b.2.2 st).2 (by rw [h2]; exact hsr) h1
      (fun c hcm => hc c (List.mem_cons_of_mem _ hcm))
    rw [h2] at this
    exact this

/-! ### Saturation -/

theorem tanh_abs_lt_one (t : ℝ) : |Real.tanh t| < 1 := by
  rw [Real.tanh_eq_sinh_div_cosh, abs_lt]
  have hc := Real.cosh_pos t
  have h1 := Real.sinh_lt_cosh t
  have h2 : 0 < Real.cosh t + Real.sinh t := by
    rw [Real.cosh_add_sinh]; exact Real.exp_pos t
  constructor
  · rw [lt_div_iff₀ hc]; linarith
  · rw [div_lt_one hc]; exact h1

/-! ### The delay engine -/

/-- The write loop stores the (fed-back) input at the cursor of the buffers
`0 .. 2 * voices - 1`, left input in the even and right input in the odd ones,
and changes nothing else. -/
theorem writeVoices_apply (p : Params α) (cur : Smoothed α) (inL inR : α) (st : State α)
    (b : Nat) (pos : Int) :
    writeVoices p cur inL inR st b pos
      = if b < 2 * p.voicesVal.toNat ∧ pos = st.writePos then
          (if b % 2 = 0 then inL + st.feedbackSample 0 * cur.curFeedback
           else inR + st.feedbackSample 1 * cur.curFeedback)
        else st.delayLines b pos := by
  unfold writeVoices voiceIndices
  generalize p.voicesVal.toNat = n
  induction n with
  | zero => simp
  | succ k ih =>
    rw [List.range_succ, List.foldl_append, List.foldl_cons, List.foldl_nil]
    simp only [setDelay, ih]
    by_cases hp : pos = st.writePos
    · by_cases h1 : b = k * 2 + 1
      · have e1 : b % 2 = 1 := by omega
        have e2 : b < 2 * (k + 1) := by omega
        rw [if_pos ⟨h1, hp⟩, if_pos ⟨e2, hp⟩, if_neg (by omega)]
      · by_cases h2 : b = k * 2
        · have e1 : b % 2 = 0 := by omega
          have e2 : b < 2 * (k + 1) := by omega
          rw [if_neg (by simp [h1]), if_pos ⟨h2, hp⟩, if_pos ⟨e2, hp⟩, if_pos e1]
        · by_cases h3 : b < 2 * k
          · have h4 : b < 2 * (k + 1) := by omega
            simp [h1, h2, h3, h4, hp]
          · have h4 : ¬ b < 2 * (k + 1) := by omega
            simp [h1, h2, h3, h4, hp]
    · simp [hp]

/-- In Chorus mode at depth 0 the delay in samples is the constant 18.5 ms,
whatever the voice LFO is. -/
theorem delaySamples_chorus_depth_zero (l sr : α) :
    delaySamples 0 l 0 sr = chorusDelay sr := by
  simp only [delaySamples, delayMs, delayRange, chorusDelay, if_true]
  ring

/-- One iteration of a delay mode with a single voice: the wet pair is one
interpolated read of buffer 0 and one of buffer 1, taken from the buffers as
they are after the iteration. -/
theorem engineStep_single_voice (m : MathFns α) (p : Params α) (cur : Smoothed α)
    (inL inR : α) (st : State α) (hmode : p.modeVal ≠ 2) (hv : p.voicesVal = 1) :
    (engineStep m p cur inL inR st).1
        = (voiceTap m p cur (engineStep m p cur inL inR st).2 0 0 0,
           voiceTap m p cur (engineStep m p cur inL inR st).2 0 1 1) ∧
      (engineStep m p cur inL inR st).2.delayLines
        = writeVoices p cur inL inR (lfoStep m p cur st).2 := by
  simp only [engineStep, if_neg hmode, delayEngine, readVoices, voiceIndices, hv]
  simp [voiceTap, voiceRead, voiceDelay, List.range_succ]

/-- The delay buffers after one iteration of a delay mode. -/
theorem processSample_delayLines (m : MathFns α) (p : Params α) (cur : Smoothed α) (i : Nat)
    (bs : AudioBuffer α × State α) (hmode : p.modeVal ≠ 2) (b : Nat) (pos : Int) :
    (processSample m p cur i bs).2.delayLines b pos
      = if b < 2 * p.voicesVal.toNat ∧ pos = bs.2.writePos then
          (if b % 2 = 0 then bs.1.data 0 i + bs.2.feedbackSample 0 * cur.curFeedback
           else bs.1.data (rightChannel bs.1.numChannels) i
             + bs.2.feedbackSample 1 * cur.curFeedback)
        else bs.2.delayLines b pos := by
  obtain ⟨-, -, a3, a4, a5, -⟩ := lfoStep_frame m p cur bs.2
  have h : (processSample m p cur i bs).2.delayLines
      = writeVoices p cur (bs.1.data 0 i) (bs.1.data (rightChannel bs.1.numChannels) i)
          (lfoStep m p cur bs.2).2 := by
    simp only [processSample, engineStep, if_neg hmode, delayEngine]
  rw [h, writeVoices_apply, a3, a4, a5]

/-- The wet pair of iteration `i` in a delay mode with one voice, saturation off
and width 1, read from the buffers as they are after the iteration. -/
theorem wetAt_single_voice (m : MathFns α) (p : Params α) (cur : Nat → Smoothed α)
    (buf : AudioBuffer α) (st : State α) (i : Nat)
    (hmode : p.modeVal ≠ 2) (hv : p.voicesVal = 1) (hwarm : p.warmthVal = 0)
    (hwidth : p.widthVal = 1) :
    wetAt m p cur buf st i
      = (voiceTap m p (cur i)
            { stateBefore m p cur buf st (i + 1) with
              writePos := (stateBefore m p cur buf st i).writePos } 0 0 0,
         voiceTap m p (cur i)
            { stateBefore m p cur buf st (i + 1) with
              writePos := (stateBefore m p cur buf st i).writePos } 0 1 1) := by
  have hc := processLoop_numChannels m p cur i (buf, st)
  have hd : ∀ ch, (processLoop m p cur i (buf, st)).1.data ch i = buf.data ch i :=
    fun ch => processLoop_data_ge m p cur i (buf, st) ch i (le_refl i)
  simp only [] at hc
  obtain ⟨e1, -⟩ := engineStep_single_voice m p (cur i) (buf.data 0 i)
    (buf.data (rightChannel buf.numChannels) i) (stateBefore m p cur buf st i) hmode hv
  obtain ⟨-, -, f3⟩ := engineStep_frame m p (cur i) (buf.data 0 i)
    (buf.data (rightChannel buf.numChannels) i) (stateBefore m p cur buf st i)
  have hw : ¬ ((0 : α) > 1 / 100) := by norm_num
  have hx : ¬ (|(1 : α) - 1| > 1 / 100) := by norm_num
  simp only [wetAt, wetPair, applyWarmth, applyWidth, hwarm, hwidth, hw, hx, if_false,
    and_false, e1]
  simp only [stateBefore, processLoop, processSample, hc, hd, voiceTap, voiceRead, voiceDelay]
  simp only [stateBefore] at f3
  rw [f3]

/-- The delay-line invariant of a delay mode with one voice and no feedback,
from the prepared state: after `n` iterations the cursor is `n mod 4096`, and
the slot `j mod 4096` of buffers 0 and 1 holds the input sample `x[j]` of the
left and right input for each of the last 4096 sample indices `j`. -/
theorem chorus_loop_invariant (m : MathFns α) (p : Params α) (cur : Nat → Smoothed α)
    (buf : AudioBuffer α) (st : State α) (sr : α) (n : Nat)
    (hmode : p.modeVal ≠ 2) (hv : p.voicesVal = 1)
    (hfb : ∀ k, (cur k).curFeedback = 0) :
    (stateBefore m p cur buf (prepareToPlay sr st) n).writePos = (n : Int) % 4096 ∧
      (stateBefore m p cur buf (prepareToPlay sr st) n).currentSampleRate = sr ∧
      ∀ j : Int, (n : Int) - 4096 ≤ j → j < n →
        (stateBefore m p cur buf (prepareToPlay sr st) n).delayLines 0 (j % 4096)
            = delayedInput buf 0 j ∧
          (stateBefore m p cur buf (prepareToPlay sr st) n).delayLines 1 (j % 4096)
            = delayedInput buf (rightChannel buf.numChannels) j := by
  induction n with
  | zero =>
    refine ⟨rfl, rfl, ?_⟩
    intro j _ hj
    have hneg : j < 0 := by exact_mod_cast hj
    simp [stateBefore, processLoop, prepareToPlay, delayedInput, hneg]
  | succ k ih =>
    obtain ⟨ihw, ihs, ihd⟩ := ih
    simp only [stateBefore] at ihw ihs ihd
    have hc := processLoop_numChannels m p cur k (buf, prepareToPlay sr st)
    have hd : ∀ ch, (processLoop m p cur k (buf, prepareToPlay sr st)).1.data ch k
        = buf.data ch k :=
      fun ch => processLoop_data_ge m p cur k (buf, prepareToPlay sr st) ch k (le_refl k)
    simp only [] at hc
    obtain ⟨-, a2, a3⟩ := processSample_frame m p (cur k) k
      (processLoop m p cur k (buf, prepareToPlay sr st))
    refine ⟨?_, ?_, ?_⟩
    · simp only [stateBefore, processLoop]
      rw [a3, ihw, kMaxDelaySize, Int.tmod_eq_emod (by omega) (by decide)]
      push_cast
      omega
    · simp only [stateBefore, processLoop]
      rw [a2, ihs]
    · intro j hj1 hj2
      simp only [stateBefore, processLoop]
      rw [processSample_delayLines m p (cur k) k _ hmode,
        processSample_delayLines m p (cur k) k _ hmode, hv, ihw, hfb k, hc, hd, hd]
      push_cast at hj1 hj2
      by_cases hjk : j = k
      · subst hjk
        have hk : ¬ ((k : Int) < 0) := by omega
        simp [delayedInput, hk]
      · have hne : ¬ (j % 4096 = (k : Int) % 4096) := by omega
        have := ihd j (by omega) (by omega)
        simp only [hne, and_false, if_false]
        exact this

/-- The wet pair of iteration `i` in Chorus mode with one voice, depth 0, no
feedback, saturation off and width 1, from the prepared state: each channel is
the input delayed by the constant 18.5 ms and read with linear interpolation. -/
theorem wetAt_chorus (m : MathFns α) (p : Params α) (cur : Nat → Smoothed α)
    (buf : AudioBuffer α) (st : State α) (sr : α) (i : Nat)
    (hmode : p.modeVal = 0) (hv : p.voicesVal = 1) (hwarm : p.warmthVal = 0)
    (hwidth : p.widthVal = 1) (hdepth : ∀ k, (cur k).curDepth = 0)
    (hfb : ∀ k, (cur k).curFeedback = 0) (hsr : 0 ≤ sr) (hcap : ⌈chorusDelay sr⌉ ≤ 4095) :
    wetAt m p cur buf (prepareToPlay sr st) i
      = (interpolatedDelay buf 0 (chorusDelay sr) i,
         interpolatedDelay buf (rightChannel buf.numChannels) (chorusDelay sr) i) := by
  have hm2 : p.modeVal ≠ 2 := by rw [hmode]; decide
  obtain ⟨w0, -, -⟩ := chorus_loop_invariant m p cur buf st sr i hm2 hv hfb
  obtain ⟨-, s1, d1⟩ := chorus_loop_invariant m p cur buf st sr (i + 1) hm2 hv hfb
  have hd0 : 0 ≤ chorusDelay sr := by
    unfold chorusDelay
    positivity
  have hc0 : 0 ≤ ⌈chorusDelay sr⌉ := Int.ceil_nonneg hd0
  have hr := readIndex_eq ((i : Int) % 4096) (chorusDelay sr) (by omega) (by omega) hd0
    (by omega)
  have e1 : ((i : Int) % 4096 - ⌈chorusDelay sr⌉) % 4096 = ((i : Int) - ⌈chorusDelay sr⌉) % 4096 := by
    omega
  have e2 : (((i : Int) - ⌈chorusDelay sr⌉) % 4096 + 1) % 4096
      = ((i : Int) - ⌈chorusDelay sr⌉ + 1) % 4096 := by
    omega
  rw [e1, e2] at hr
  rw [wetAt_single_voice m p cur buf _ i hm2 hv hwarm hwidth]
  simp only [voiceTap, voiceRead, voiceDelay, hmode, hdepth i, delaySamples_chorus_depth_zero, w0, s1, hr]
  have k1 := d1 ((i : Int) - ⌈chorusDelay sr⌉) (by push_cast; omega) (by push_cast; omega)
  rw [k1.1, k1.2]
  by_cases hz : ⌈chorusDelay sr⌉ = 0
  · have hle : chorusDelay sr ≤ 0 := by
      have := Int.ceil_le.mp (le_of_eq hz)
      simpa using this
    have hd : chorusDelay sr = 0 := le_antisymm hle hd0
    simp [interpolatedDelay, hz, hd]
  · have k2 := d1 ((i : Int) - ⌈chorusDelay sr⌉ + 1) (by push_cast; omega) (by push_cast; omega)
    rw [k2.1, k2.2]
    simp only [interpolatedDelay]
    refine Prod.ext ?_ ?_ <;> simp only <;> ring

/-! ### The phaser engine -/

/-- The allpass cascade only touches the stages its loop visits. -/
theorem phaser_fold_frame (f : Nat → (α × α) × (Nat → Nat → α) → (α × α) × (α × α))
    (l : List Nat) (acc : (α × α) × (Nat → Nat → α)) (ch s : Nat) (hs : s ∉ l) :
    (l.foldl (fun a k =>
        ((f k a).1, setStage (setStage a.2 0 k (f k a).2.1) 1 k (f k a).2.2)) acc).2 ch s
      = acc.2 ch s := by
  induction l generalizing acc with
  | nil => rfl
  | cons a t ih =>
    rw [List.foldl_cons, ih _ (fun h => hs (List.mem_cons_of_mem _ h))]
    have hne : s ≠ a := fun h => hs (h ▸ List.mem_cons_self _ _)
    simp [setStage, hne]

/-- One iteration leaves every allpass state outside the visited stages alone,
in every mode. -/
theorem processSample_phaserStages (m : MathFns α) (p : Params α) (cur : Smoothed α) (i : Nat)
    (bs : AudioBuffer α × State α) (ch s : Nat) (hs : p.stagesVal.toNat ≤ s) :
    (processSample m p cur i bs).2.phaserStages ch s = bs.2.phaserStages ch s := by
  obtain ⟨-, -, -, -, -, a6⟩ := lfoStep_frame m p cur bs.2
  by_cases hmode : p.modeVal = 2
  · simp only [processSample, engineStep, hmode, if_true, phaserEngine, stageIndices]
    have h := phaser_fold_frame
      (fun k a =>
        let oL := AllpassStage.process (a.2 0 k) a.1.1
          (allpassCoeff m (stageFreq m p cur (lfoStep m p cur bs.2).1.1 k)
            (lfoStep m p cur bs.2).2.currentSampleRate)
        let oR := AllpassStage.process (setStage a.2 0 k oL.2 1 k) a.1.2
          (allpassCoeff m (stageFreq m p cur (lfoStep m p cur bs.2).1.2 k)
            (lfoStep m p cur bs.2).2.currentSampleRate)
        ((oL.1, oR.1), (oL.2, oR.2)))
      (List.range p.stagesVal.toNat)
      ((bs.1.data 0 i + (lfoStep m p cur bs.2).2.feedbackSample 0 * cur.curFeedback * (7 / 10),
        bs.1.data (rightChannel bs.1.numChannels) i
          + (lfoStep m p cur bs.2).2.feedbackSample 1 * cur.curFeedback * (7 / 10)),
        (lfoStep m p cur bs.2).2.phaserStages)
      ch s (by simp only [List.mem_range]; omega)
    simp only [] at h
    rw [a6] at h
    rw [← h, a6]
  · simp only [processSample, engineStep, if_neg hmode, delayEngine, a6]

/-- The delay buffers are untouched in Phaser mode. -/
theorem processSample_delayLines_phaser (m : MathFns α) (p : Params α) (cur : Smoothed α)
    (i : Nat) (bs : AudioBuffer α × State α) (hmode : p.modeVal = 2) :
    (processSample m p cur i bs).2.delayLines = bs.2.delayLines := by
  obtain ⟨-, -, -, a4, -, -⟩ := lfoStep_frame m p cur bs.2
  simp only [processSample, engineStep, hmode, if_true, phaserEngine, a4]

/-! ### The modulated delay -/

theorem delayMs_bounds (modeVal : Int) (l depth : α) (hl0 : -1 ≤ l) (hl1 : l ≤ 1)
    (hd0 : 0 ≤ depth) (hd1 : depth ≤ 1) :
    1 / 10 ≤ delayMs modeVal l depth ∧ delayMs modeVal l depth ≤ 30 := by
  have h1 : -1 ≤ l * depth := by nlinarith
  have h2 : l * depth ≤ 1 := by nlinarith
  unfold delayMs delayRange
  split_ifs <;> constructor <;> simp only <;> linarith

theorem voiceLfo_real_bounds (voicesVal : Int) (spreadVal phase : ℝ) (v : Nat) :
    -1 ≤ voiceLfo realFns voicesVal spreadVal phase v ∧
      voiceLfo realFns voicesVal spreadVal phase v ≤ 1 := by
  simp only [voiceLfo, getSineLFO, realFns]
  exact ⟨Real.neg_one_le_sin _, Real.sin_le_one _⟩

/-! ## The claims -/

/-! ### Bypass -/

/-- Claim C1: with `bypass = true` and as many input as output channels,
`processBlock` returns the buffer it was given, every sample equal to its input
value (and leaves the DSP state as it was), for every parameter snapshot,
channel count and block length. -/
theorem processBlock_bypass (m : MathFns α) (p : Params α) (cur : Nat → Smoothed α)
    (buf : AudioBuffer α) (st : State α)
    (hch : st.totalNumInputChannels = st.totalNumOutputChannels)
    (hb : p.bypassVal = true) :
    (processBlock m p cur buf st).1 = buf ∧
      (∀ ch i, (processBlock m p cur buf st).1.data ch i = buf.data ch i) ∧
      (processBlock m p cur buf st).2 = st := by
  have h : processBlock m p cur buf st = (buf, st) := by
    unfold processBlock
    simp [hb, clearExtraOutputs_eq st buf (le_of_eq hch.symm)]
  rw [h]
  exact ⟨rfl, fun _ _ => rfl, rfl⟩

theorem processBlock_bypass_witness :
    (processBlock ratFns { (defaultParams : Params ℚ) with bypassVal := true }
        (fun _ => defaultSmoothed) (stereoBuffer [1, 2] [3, 4]) (initialState (fun _ => 0))).1
      = stereoBuffer [1, 2] [3, 4] :=
  (processBlock_bypass ratFns { (defaultParams : Params ℚ) with bypassVal := true }
    (fun _ => defaultSmoothed) (stereoBuffer [1, 2] [3, 4]) (initialState (fun _ => 0))
    rfl rfl).1

/-! ### Array bounds -/

/-- Claim C2 as stated fails: `processBlock` uses the loaded voice count without
clamping.  With `voices = 9` the voice loops visit `v = 8`, whose buffer index
`8 * 2 = 16` is not below the 16 delay buffers, and the block stores the input
sample `1` into `delayLines[16][0]`. -/
theorem voices_not_clamped_counterexample :
    (8 : Nat) ∈ voiceIndices 9 ∧ ¬ (8 * 2 < numDelayLines) ∧
      (prepareToPlay (48000 : ℚ) (initialState (fun _ => 0))).delayLines 16 0 = 0 ∧
      (processBlock ratFns { (defaultParams : Params ℚ) with voicesVal := 9 }
          (fun _ => defaultSmoothed) (stereoBuffer [1] [1])
          (prepareToPlay 48000 (initialState (fun _ => 0)))).2.delayLines 16 0 = 1 := by
  refine ⟨by decide, by decide, rfl, ?_⟩
  rw [processBlock_eq_loop _ _ _ _ _ rfl rfl]
  show (processSample ratFns _ _ 0 _).2.delayLines 16 0 = 1
  rw [processSample_delayLines _ _ _ _ _ (by decide)]
  have h9 : (16 : Nat) < 2 * Int.toNat 9 := by decide
  norm_num [processLoop, defaultParams, defaultSmoothed, stereoBuffer, prepareToPlay,
    initialState, h9]

/-- Claim C2, amended: `processBlock` uses `voices` and `stages` as loaded.  For
every snapshot with `voices` in `[1,8]` and `stages` in `[2,12]` every delay
buffer index `2v`, `2v+1` of the voice loops is below 16, every stage index of
the phaser loop is below 12, the voice count that divides the wet sum is not
zero, and one iteration of the sample loop changes no delay buffer with index
16 or more and no allpass state with stage index 12 or more. -/
theorem accesses_in_bounds_of_range (m : MathFns α) (p : Params α) (cur : Smoothed α) (i : Nat)
    (bs : AudioBuffer α × State α)
    (hv1 : 1 ≤ p.voicesVal) (hv8 : p.voicesVal ≤ 8)
    (hs2 : 2 ≤ p.stagesVal) (hs12 : p.stagesVal ≤ 12) :
    (∀ v ∈ voiceIndices p.voicesVal, v * 2 < numDelayLines ∧ v * 2 + 1 < numDelayLines) ∧
      (∀ s ∈ stageIndices p.stagesVal, s < kMaxStages) ∧
      ((p.voicesVal : α) ≠ 0) ∧
      (∀ b pos, numDelayLines ≤ b →
        (processSample m p cur i bs).2.delayLines b pos = bs.2.delayLines b pos) ∧
      (∀ ch s, kMaxStages ≤ s →
        (processSample m p cur i bs).2.phaserStages ch s = bs.2.phaserStages ch s) := by
  have hn : numDelayLines = 16 := rfl
  have hk : kMaxStages = 12 := rfl
  refine ⟨?_, ?_, ?_, ?_, ?_⟩
  · intro v hv
    simp only [voiceIndices, List.mem_range] at hv
    rw [hn]
    omega
  · intro s hs
    simp only [stageIndices, List.mem_range] at hs
    rw [hk]
    omega
  · have : (0 : α) < (p.voicesVal : α) := by exact_mod_cast (by omega : 0 < p.voicesVal)
    exact ne_of_gt this
  · intro b pos hb
    rw [hn] at hb
    by_cases hmode : p.modeVal = 2
    · rw [processSample_delayLines_phaser m p cur i bs hmode]
    · rw [processSample_delayLines m p cur i bs hmode, if_neg]
      intro h
      omega
  · intro ch s hs
    rw [hk] at hs
    exact processSample_phaserStages m p cur i bs ch s (by omega)

theorem accesses_in_bounds_of_range_witness :
    (∀ v ∈ voiceIndices (defaultParams : Params ℚ).voicesVal,
        v * 2 < numDelayLines ∧ v * 2 + 1 < numDelayLines) ∧
      (∀ s ∈ stageIndices (defaultParams : Params ℚ).stagesVal, s < kMaxStages) :=
  ⟨(accesses_in_bounds_of_range ratFns defaultParams defaultSmoothed 0
      (stereoBuffer [1] [1], initialState (fun _ => 0))
      (by decide) (by decide) (by decide) (by decide)).1,
   (accesses_in_bounds_of_range ratFns defaultParams defaultSmoothed 0
      (stereoBuffer [1] [1], initialState (fun _ => 0))
      (by decide) (by decide) (by decide) (by decide)).2.1⟩

/-! ### Read indices -/

/-- Claim C3: both read indices computed for a voice and a channel, `idx` (the
truncated read position after the negative-offset correction, reduced modulo
the capacity) and `idx1 = (idx + 1) % kMaxDelaySize`, lie in `[0, 4096)`.  This
holds at every state and parameter snapshot, in particular for 1 to 8 voices,
the delay modes, depth in `[0,1]`, a write cursor in `[0,4096)` and a positive
sample rate. -/
theorem voiceRead_indices_in_range (m : MathFns α) (p : Params α) (cur : Smoothed α)
    (st : State α) (v ch : Nat) :
    (0 ≤ (voiceRead m p cur st v ch).1 ∧ (voiceRead m p cur st v ch).1 < 4096) ∧
      (0 ≤ (voiceRead m p cur st v ch).2.1 ∧ (voiceRead m p cur st v ch).2.1 < 4096) :=
  readIndex_bounds _ _

/-! ### LFO phase -/

/-- Claim C4: starting from the prepared state, after any sequence of whole
blocks followed by any number `n` of further per-sample LFO advances, with the
smoothed rate in `[0,100]`, the stereo phase offset in `[0,0.5]` and a sample
rate above 20 Hz, both `lfoPhase[0]` and `lfoPhase[1]` lie in `[0,1)`. -/
theorem lfo_phase_in_range (sampleRate : ℝ) (st : State ℝ)
    (blocks : List (Params ℝ × (Nat → Smoothed ℝ) × AudioBuffer ℝ))
    (p : Params ℝ) (cur : Nat → Smoothed ℝ) (buf : AudioBuffer ℝ) (n : Nat)
    (hsr : 20 < sampleRate)
    (hblocks : ∀ b ∈ blocks, LfoControlsInRange b.1 b.2.1)
    (hc : LfoControlsInRange p cur) :
    PhaseInRange
      (processLoop realFns p cur n
        (buf, runBlocks realFns (prepareToPlay sampleRate st) blocks)).2 := by
  have h0 : PhaseInRange (prepareToPlay sampleRate st) := by
    simp [PhaseInRange, prepareToPlay]
  obtain ⟨h1, h2⟩ := runBlocks_phase blocks (prepareToPlay sampleRate st) hsr h0 hblocks
  exact (processLoop_phase p cur buf _ n (by rw [h2]; exact hsr) h1 hc).1

theorem lfo_phase_in_range_witness :
    PhaseInRange
      (processLoop realFns defaultParams (fun _ => defaultSmoothed) 3
        (stereoBuffer [1, 2, 3] [4, 5, 6],
          runBlocks realFns (prepareToPlay 44100 (initialState (fun _ => 0)))
            [(defaultParams, (fun _ => defaultSmoothed), stereoBuffer [1, 2] [3, 4])])).2 :=
  lfo_phase_in_range 44100 (initialState (fun _ => 0))
    [(defaultParams, (fun _ => defaultSmoothed), stereoBuffer [1, 2] [3, 4])]
    defaultParams (fun _ => defaultSmoothed) (stereoBuffer [1, 2, 3] [4, 5, 6]) 3
    (by norm_num)
    (by
      intro b hb
      simp only [List.mem_singleton] at hb
      subst hb
      refine ⟨⟨?_, ?_⟩, fun i => ⟨?_, ?_⟩⟩ <;> norm_num [defaultParams, defaultSmoothed])
    (by refine ⟨⟨?_, ?_⟩, fun i => ⟨?_, ?_⟩⟩ <;> norm_num [defaultParams, defaultSmoothed])

/-! ### Chorus at depth 0 -/

/-- Claim C5 as stated fails just below the capacity: at the sample rate
`221400` Hz the delay is `d = 4095.9 < 4096` samples, the first output
sample of the unit impulse is `9/10` (the read wraps onto the sample written in
the same iteration), while the delayed input `x[0 - 4096]`, `x[0 - 4095]` is 0. -/
theorem chorus_delay_below_capacity_counterexample :
    chorusDelay (221400 : ℚ) < 4096 ∧
      (processBlock ratFns chorusScenarioParams (fun _ => chorusScenarioSmoothed 1)
          (stereoBuffer [1] [1])
          (prepareToPlay (221400) (initialState (fun _ => 0)))).1.data 0 0 = 9 / 10 ∧
      interpolatedDelay (stereoBuffer [1] [1]) 0 (chorusDelay (221400 : ℚ)) 0 = 0 := by
  have hd : chorusDelay (221400 : ℚ) = 40959 / 10 := by
    unfold chorusDelay; norm_num
  have hc : ⌈(40959 / 10 : ℚ)⌉ = 4096 := by
    rw [Int.ceil_eq_iff]; norm_num
  have hm2 : (chorusScenarioParams : Params ℚ).modeVal ≠ 2 := by decide
  refine ⟨by rw [hd]; norm_num, ?_, ?_⟩
  · have hr := readIndex_eq (0 : Int) (40959 / 10 : ℚ) (by decide) (by decide) (by norm_num)
      (by rw [hc])
    rw [hc] at hr
    rw [processBlock_eq_loop _ _ _ _ _ rfl rfl]
    rw [(processLoop_stereo ratFns chorusScenarioParams (fun _ => chorusScenarioSmoothed 1)
      (stereoBuffer [1] [1]) _ _ 0 rfl (by decide)).1]
    rw [wetAt_single_voice _ _ _ _ _ _ hm2 rfl rfl rfl]
    simp only [voiceTap, voiceRead, voiceDelay, stateBefore, processLoop]
    rw [processSample_delayLines _ _ _ _ _ hm2, processSample_delayLines _ _ _ _ _ hm2]
    have hds : delaySamples (chorusScenarioParams : Params ℚ).modeVal
        (voiceLfo ratFns (chorusScenarioParams : Params ℚ).voicesVal
          (chorusScenarioParams : Params ℚ).spreadVal
          ((processSample ratFns chorusScenarioParams (chorusScenarioSmoothed 1) 0
            (stereoBuffer [1] [1], prepareToPlay (221400) (initialState fun _ => 0))).2.lfoPhase 0) 0)
        (chorusScenarioSmoothed (1 : ℚ)).curDepth
        (processSample ratFns chorusScenarioParams (chorusScenarioSmoothed 1) 0
            (stereoBuffer [1] [1], prepareToPlay (221400) (initialState fun _ => 0))).2.currentSampleRate
        = 40959 / 10 := by
      rw [(processSample_frame _ _ _ _ _).2.1]
      show delaySamples 0 _ 0 _ = _
      rw [delaySamples_chorus_depth_zero]
      exact hd
    rw [hds]
    have hw : (prepareToPlay (221400 : ℚ) (initialState fun _ => 0)).writePos = 0 := rfl
    simp only [hw, hr]
    norm_num [chorusScenarioParams, defaultParams, chorusScenarioSmoothed, stereoBuffer,
      prepareToPlay, initialState]
  · rw [hd]
    simp only [interpolatedDelay, hc, delayedInput]
    norm_num

/-- Claim C5, amended: after `prepareToPlay`, in Chorus mode with depth 0,
feedback 0, one voice, mix 1, saturation off and width 1, every output sample
of every channel of a mono or stereo block is the input of that channel delayed
by `d = 18.5 ms * sampleRate / 1000` samples and read with linear
interpolation, whatever the LFO phase, rate, shape and spread are, provided
`ceil d` is at most 4095 (one less than the buffer capacity). -/
theorem chorus_depth_zero_is_delay (m : MathFns α) (p : Params α) (cur : Nat → Smoothed α)
    (buf : AudioBuffer α) (st : State α) (sampleRate : α) (ch i : Nat)
    (hio : st.totalNumInputChannels = st.totalNumOutputChannels)
    (hb : p.bypassVal = false)
    (hmode : p.modeVal = 0) (hv : p.voicesVal = 1) (hwarm : p.warmthVal = 0)
    (hwidth : p.widthVal = 1)
    (hcur : ∀ k, (cur k).curDepth = 0 ∧ (cur k).curFeedback = 0 ∧ (cur k).curMix = 1)
    (hsr : 0 ≤ sampleRate) (hcap : ⌈chorusDelay sampleRate⌉ ≤ 4095)
    (hchans : buf.numChannels = 1 ∨ buf.numChannels = 2)
    (hch : ch < buf.numChannels) (hi : i < buf.numSamples) :
    (processBlock m p cur buf (prepareToPlay sampleRate st)).1.data ch i
      = interpolatedDelay buf ch (chorusDelay sampleRate) i := by
  have hw := wetAt_chorus m p cur buf st sampleRate i hmode hv hwarm hwidth
    (fun k => (hcur k).1) (fun k => (hcur k).2.1) hsr hcap
  rw [processBlock_eq_loop m p cur buf (prepareToPlay sampleRate st) hio hb]
  rcases hchans with h1 | h2
  · have hch0 : ch = 0 := by omega
    subst hch0
    rw [processLoop_mono m p cur buf _ _ i h1 hi, hw, (hcur i).2.2]
    simp [rightChannel, h1]
  · obtain ⟨hL, hR⟩ := processLoop_stereo m p cur buf (prepareToPlay sampleRate st) _ i h2 hi
    have hch01 : ch = 0 ∨ ch = 1 := by omega
    rcases hch01 with h0 | h1
    · subst h0
      rw [hL, hw, (hcur i).2.2]
      simp
    · subst h1
      rw [hR, hw, (hcur i).2.2]
      simp [rightChannel, h2]

theorem chorus_depth_zero_is_delay_witness :
    (processBlock ratFns chorusScenarioParams (fun _ => chorusScenarioSmoothed 1)
        (stereoBuffer [1, 2, 3] [4, 5, 6])
        (prepareToPlay (2000 / 37) (initialState (fun _ => 0)))).1.data 1 2
      = interpolatedDelay (stereoBuffer [1, 2, 3] [4, 5, 6]) 1 (chorusDelay (2000 / 37 : ℚ)) 2 :=
  chorus_depth_zero_is_delay ratFns chorusScenarioParams (fun _ => chorusScenarioSmoothed 1)
    (stereoBuffer [1, 2, 3] [4, 5, 6]) (initialState (fun _ => 0)) (2000 / 37) 1 2
    rfl rfl rfl rfl rfl rfl (fun _ => ⟨rfl, rfl, rfl⟩) (by norm_num)
    (by
      have hd : chorusDelay (2000 / 37 : ℚ) = 1 := by unfold chorusDelay; norm_num
      rw [hd]
      norm_num)
    (Or.inr rfl) (by decide) (by decide)

/-! ### Delay against capacity -/

/-- Claim C6 as stated fails: the engine can be prepared at 192 kHz, where in
Chorus mode at depth 1 and channel phase 1/4 (voice LFO at its peak) the
modulated delay is 30 ms = 5760 samples, not below the capacity 4096, and the
negative-offset correction adds the capacity twice. -/
theorem delay_exceeds_capacity_counterexample :
    delaySamples 0 (voiceLfo realFns 3 (1 / 2) (1 / 4) 0) 1 (192000 : ℝ) = 5760 ∧
      ¬ ((5760 : ℝ) < ((kMaxDelaySize : Int) : ℝ)) ∧
      wrapNegative (((0 : Int) : ℝ) - 5760) = ((0 : Int) : ℝ) - 5760 + 4096 + 4096 := by
  have hfl : toInt (1 / 4 : ℝ) = 0 := by
    rw [toInt_of_nonneg _ (by norm_num), Int.floor_eq_zero_iff]
    constructor <;> norm_num
  have hl : voiceLfo realFns 3 (1 / 2) (1 / 4) 0 = 1 := by
    simp only [voiceLfo, getSineLFO, fmod, realFns]
    have e : ((1 / 4 : ℝ) + ((0 : Nat) : ℝ) / ((3 : Int) : ℝ) * (1 / 2)) / 1 = 1 / 4 := by
      norm_num
    have e2 : ((1 / 4 : ℝ) + ((0 : Nat) : ℝ) / ((3 : Int) : ℝ) * (1 / 2)) = 1 / 4 := by
      norm_num
    rw [e, e2, hfl]
    rw [show ((1 / 4 : ℝ) - 1 * ((0 : Int) : ℝ)) * (2 * Real.pi) = Real.pi / 2 by
      push_cast; ring]
    exact Real.sin_pi_div_two
  refine ⟨?_, ?_, ?_⟩
  · rw [hl]
    simp only [delaySamples, delayMs, delayRange, if_true]
    norm_num
  · simp only [kMaxDelaySize]
    norm_num
  · rw [wrapNegative_of_neg _ (by norm_num), wrapNegative_of_neg _ (by norm_num),
      wrapNegative_of_nonneg _ (by norm_num)]

/-- Claim C6, amended: for every mode, every depth in `[0,1]`, every voice and
channel, a write cursor in `[0,4096)` and every sample rate in `(0, 136500]` Hz
(so that 30 ms is at most 4095 samples), the modulated delay `d` in samples is
positive and below the capacity 4096, the negative-offset correction adds the
capacity at most once, and the read indices are the slots the cursor visited
`ceil d` and `ceil d - 1` samples earlier, with `ceil d` at most 4095 and the
fraction `ceil d - d`. -/
theorem delay_below_capacity (p : Params ℝ) (cur : Smoothed ℝ) (st : State ℝ) (v ch : Nat)
    (hd0 : 0 ≤ cur.curDepth) (hd1 : cur.curDepth ≤ 1)
    (hsr0 : 0 < st.currentSampleRate) (hsr1 : st.currentSampleRate ≤ 136500)
    (hw0 : 0 ≤ st.writePos) (hw1 : st.writePos < 4096) :
    0 < voiceDelay realFns p cur st v ch ∧
      voiceDelay realFns p cur st v ch < ((kMaxDelaySize : Int) : ℝ) ∧
      wrapNegative ((st.writePos : ℝ) - voiceDelay realFns p cur st v ch)
        = (if (st.writePos : ℝ) - voiceDelay realFns p cur st v ch < 0
            then (st.writePos : ℝ) - voiceDelay realFns p cur st v ch + 4096
            else (st.writePos : ℝ) - voiceDelay realFns p cur st v ch) ∧
      ⌈voiceDelay realFns p cur st v ch⌉ ≤ 4095 ∧
      voiceRead realFns p cur st v ch
        = ((st.writePos - ⌈voiceDelay realFns p cur st v ch⌉) % 4096,
           ((st.writePos - ⌈voiceDelay realFns p cur st v ch⌉) % 4096 + 1) % 4096,
           (⌈voiceDelay realFns p cur st v ch⌉ : ℝ) - voiceDelay realFns p cur st v ch) := by
  obtain ⟨l0, l1⟩ := voiceLfo_real_bounds p.voicesVal p.spreadVal (st.lfoPhase ch) v
  obtain ⟨m0, m1⟩ := delayMs_bounds p.modeVal _ cur.curDepth l0 l1 hd0 hd1
  have hpos : 0 < voiceDelay realFns p cur st v ch := by
    simp only [voiceDelay, delaySamples]
    have : 0 < delayMs p.modeVal (voiceLfo realFns p.voicesVal p.spreadVal (st.lfoPhase ch) v)
        cur.curDepth := by linarith
    positivity
  have hle : voiceDelay realFns p cur st v ch ≤ 4095 := by
    simp only [voiceDelay, delaySamples]
    rw [div_le_iff₀ (by norm_num)]
    nlinarith
  have hceil : ⌈voiceDelay realFns p cur st v ch⌉ ≤ 4095 := by
    rw [Int.ceil_le]
    exact_mod_cast hle
  refine ⟨hpos, ?_, ?_, hceil, ?_⟩
  · simp only [kMaxDelaySize]
    push_cast
    linarith
  · exact wrapNegative_sub _ _ hw0 (by linarith)
  · exact readIndex_eq _ _ hw0 hw1 (le_of_lt hpos) (by omega)

theorem delay_below_capacity_witness :
    0 < voiceDelay realFns defaultParams defaultSmoothed
        (prepareToPlay 96000 (initialState (fun _ => 0))) 2 1 ∧
      voiceDelay realFns defaultParams defaultSmoothed
        (prepareToPlay 96000 (initialState (fun _ => 0))) 2 1 < ((kMaxDelaySize : Int) : ℝ) :=
  ⟨(delay_below_capacity defaultParams defaultSmoothed
      (prepareToPlay 96000 (initialState (fun _ => 0))) 2 1
      (by norm_num [defaultSmoothed]) (by norm_num [defaultSmoothed])
      (by norm_num [prepareToPlay]) (by norm_num [prepareToPlay])
      (by simp [prepareToPlay]) (by simp [prepareToPlay])).1,
   (delay_below_capacity defaultParams defaultSmoothed
      (prepareToPlay 96000 (initialState (fun _ => 0))) 2 1
      (by norm_num [defaultSmoothed]) (by norm_num [defaultSmoothed])
      (by norm_num [prepareToPlay]) (by norm_num [prepareToPlay])
      (by simp [prepareToPlay]) (by simp [prepareToPlay])).2.1⟩

/-! ### Dry/wet mix -/

/-- Claim C7: in a stereo block that is not bypassed, at every sample whose
smoothed mix value is 0 the output of each channel is that channel's dry input
sample, and at every sample whose smoothed mix value is 1 it is that channel's
wet sample (after saturation and width), for every mode and every other
parameter value. -/
theorem mix_endpoints (m : MathFns α) (p : Params α) (cur : Nat → Smoothed α)
    (buf : AudioBuffer α) (st : State α) (i : Nat)
    (hch : st.totalNumInputChannels = st.totalNumOutputChannels)
    (hb : p.bypassVal = false) (h2 : buf.numChannels = 2) (hi : i < buf.numSamples) :
    ((cur i).curMix = 0 →
        (processBlock m p cur buf st).1.data 0 i = buf.data 0 i ∧
        (processBlock m p cur buf st).1.data 1 i = buf.data 1 i) ∧
      ((cur i).curMix = 1 →
        (processBlock m p cur buf st).1.data 0 i = (wetAt m p cur buf st i).1 ∧
        (processBlock m p cur buf st).1.data 1 i = (wetAt m p cur buf st i).2) := by
  obtain ⟨hL, hR⟩ := processLoop_stereo m p cur buf st buf.numSamples i h2 hi
  rw [processBlock_eq_loop m p cur buf st hch hb, hL, hR]
  constructor
  · intro h0
    rw [h0]
    constructor <;> ring
  · intro h1
    rw [h1]
    constructor <;> ring

theorem mix_endpoints_witness :
    (processBlock ratFns defaultParams
        (fun _ => { (defaultSmoothed : Smoothed ℚ) with curMix := 0 })
        (stereoBuffer [1, 2] [3, 4]) (initialState (fun _ => 0))).1.data 0 1
      = (stereoBuffer [1, 2] [3, 4]).data 0 1 ∧
    (processBlock ratFns defaultParams
        (fun _ => { (defaultSmoothed : Smoothed ℚ) with curMix := 0 })
        (stereoBuffer [1, 2] [3, 4]) (initialState (fun _ => 0))).1.data 1 1
      = (stereoBuffer [1, 2] [3, 4]).data 1 1 :=
  (mix_endpoints ratFns defaultParams
    (fun _ => { (defaultSmoothed : Smoothed ℚ) with curMix := 0 })
    (stereoBuffer [1, 2] [3, 4]) (initialState (fun _ => 0)) 1 rfl rfl rfl (by decide)).1 rfl

/-! ### Dry/wet mix in mono -/

/-- Claim C8 fails on the code for a mono buffer: with the unit impulse as
input, mix 1/2 and a wet sample of 0 (Chorus at depth 0, one voice, prepared at
48 kHz), the single output channel is `1/4`, whereas `dry * (1 - mix) + wet *
mix` is `1/2`: the right pointers alias the left ones, so the mix statement for
the right channel reads the left result instead of the input. -/
theorem mono_mix_applied_twice :
    wetAt ratFns chorusScenarioParams (fun _ => chorusScenarioSmoothed (1 / 2))
        (monoBuffer [1]) (prepareToPlay 48000 (initialState (fun _ => 0))) 0 = (0, 0) ∧
      (processBlock ratFns chorusScenarioParams (fun _ => chorusScenarioSmoothed (1 / 2))
          (monoBuffer [1]) (prepareToPlay 48000 (initialState (fun _ => 0)))).1.data 0 0
        = 1 / 4 ∧
      (monoBuffer [(1 : ℚ)]).data 0 0 * (1 - 1 / 2) + 0 * (1 / 2) = 1 / 2 := by
  have hd : chorusDelay (48000 : ℚ) = ((888 : Int) : ℚ) := by
    unfold chorusDelay; norm_num
  have hc : ⌈chorusDelay (48000 : ℚ)⌉ = 888 := by
    rw [hd, Int.ceil_intCast]
  have hw := wetAt_chorus ratFns chorusScenarioParams
    (fun _ => chorusScenarioSmoothed (1 / 2)) (monoBuffer [1]) (initialState (fun _ => 0))
    48000 0 rfl rfl rfl rfl (fun _ => rfl) (fun _ => rfl) (by norm_num) (by rw [hc]; decide)
  have hi : interpolatedDelay (monoBuffer [(1 : ℚ)]) 0 (chorusDelay 48000) 0 = 0 := by
    simp only [interpolatedDelay, hc, delayedInput]
    norm_num
  have hr : rightChannel (monoBuffer [(1 : ℚ)]).numChannels = 0 := rfl
  rw [hr, hi] at hw
  refine ⟨hw, ?_, ?_⟩
  · rw [processBlock_eq_loop _ _ _ _ _ rfl rfl,
      processLoop_mono _ _ _ _ _ _ 0 rfl (by decide), hw]
    norm_num [monoBuffer, chorusScenarioSmoothed]
  · norm_num [monoBuffer]

/-! ### Stereo width -/

/-- Claim C9: the stereo-width stage at `width = 1` returns the wet pair
unchanged (for any channel count), and the mid/side formula itself evaluated at
`width = 1` also returns it unchanged. -/
theorem width_one_neutral (numChannels : Nat) (L R : α) :
    applyWidth numChannels 1 (L, R) = (L, R) ∧ midSide 1 (L, R) = (L, R) := by
  constructor
  · unfold applyWidth
    simp
  · unfold midSide
    simp
    constructor <;> ring

/-! ### Saturation -/

/-- Claim C10: for warmth in `(0.01, 1]` the warmth stage computes
`tanh (x * drive) / drive` with `drive = 1 + 3 * warmth` on each channel, and
this function is odd and bounded in magnitude by `1 / drive` (strictly). -/
theorem saturation_odd_bounded (warmth x y : ℝ) (hw : 1 / 100 < warmth) (hw1 : warmth ≤ 1) :
    applyWarmth realFns warmth (x, y)
        = (Real.tanh (x * (1 + warmth * 3)) / (1 + warmth * 3),
           Real.tanh (y * (1 + warmth * 3)) / (1 + warmth * 3)) ∧
      (applyWarmth realFns warmth (-x, -y)).1 = -(applyWarmth realFns warmth (x, y)).1 ∧
      (applyWarmth realFns warmth (-x, -y)).2 = -(applyWarmth realFns warmth (x, y)).2 ∧
      |(applyWarmth realFns warmth (x, y)).1| < 1 / (1 + warmth * 3) ∧
      |(applyWarmth realFns warmth (x, y)).2| < 1 / (1 + warmth * 3) := by
  have hd : (0 : ℝ) < 1 + warmth * 3 := by linarith
  have hb : ∀ t : ℝ, |Real.tanh t / (1 + warmth * 3)| < 1 / (1 + warmth * 3) := by
    intro t
    rw [abs_div, abs_of_pos hd]
    exact div_lt_div_of_pos_right (tanh_abs_lt_one t) hd
  have hg : warmth > 1 / 100 := hw
  simp only [applyWarmth, hg, if_true, realFns]
  refine ⟨trivial, ?_, ?_, hb _, hb _⟩
  · rw [neg_mul, Real.tanh_neg, neg_div]
  · rw [neg_mul, Real.tanh_neg, neg_div]

theorem saturation_odd_bounded_witness :
    |(applyWarmth realFns (1 / 2) (1, 2)).1| < 1 / (1 + (1 / 2 : ℝ) * 3) :=
  (saturation_odd_bounded (1 / 2) 1 2 (by norm_num) (by norm_num)).2.2.2.1

/-! ### The output bound under saturation -/

/-- The wet pair mixed into the output is the engine pair after the warmth and
width stages. -/
theorem wetAt_eq_post (m : MathFns α) (p : Params α) (cur : Nat → Smoothed α)
    (buf : AudioBuffer α) (st : State α) (i : Nat) :
    wetAt m p cur buf st i
      = applyWidth buf.numChannels p.widthVal
          (applyWarmth m p.warmthVal (engineAt m p cur buf st i)) := rfl

/-- The engine pair of iteration `i` in Chorus mode with one voice, depth 0 and
no feedback, from the prepared state, whatever warmth and width are. -/
theorem engineAt_chorus (m : MathFns α) (p : Params α) (cur : Nat → Smoothed α)
    (buf : AudioBuffer α) (st : State α) (sr : α) (i : Nat)
    (hmode : p.modeVal = 0) (hv : p.voicesVal = 1) (hdepth : ∀ k, (cur k).curDepth = 0)
    (hfb : ∀ k, (cur k).curFeedback = 0) (hsr : 0 ≤ sr) (hcap : ⌈chorusDelay sr⌉ ≤ 4095) :
    engineAt m p cur buf (prepareToPlay sr st) i
      = (interpolatedDelay buf 0 (chorusDelay sr) i,
         interpolatedDelay buf (rightChannel buf.numChannels) (chorusDelay sr) i) := by
  have hm2 : p.modeVal ≠ 2 := by rw [hmode]; decide
  obtain ⟨w0, -, -⟩ := chorus_loop_invariant m p cur buf st sr i hm2 hv hfb
  obtain ⟨-, s1, d1⟩ := chorus_loop_invariant m p cur buf st sr (i + 1) hm2 hv hfb
  have hd0 : 0 ≤ chorusDelay sr := by
    unfold chorusDelay
    positivity
  have hc0 : 0 ≤ ⌈chorusDelay sr⌉ := Int.ceil_nonneg hd0
  have hr := readIndex_eq ((i : Int) % 4096) (chorusDelay sr) (by omega) (by omega) hd0
    (by omega)
  have e1 : ((i : Int) % 4096 - ⌈chorusDelay sr⌉) % 4096
      = ((i : Int) - ⌈chorusDelay sr⌉) % 4096 := by
    omega
  have e2 : (((i : Int) - ⌈chorusDelay sr⌉) % 4096 + 1) % 4096
      = ((i : Int) - ⌈chorusDelay sr⌉ + 1) % 4096 := by
    omega
  rw [e1, e2] at hr
  obtain ⟨g1, g2⟩ := engineStep_single_voice m p (cur i) (buf.data 0 i)
    (buf.data (rightChannel buf.numChannels) i)
    (stateBefore m p cur buf (prepareToPlay sr st) i) hm2 hv
  obtain ⟨-, f2, f3⟩ := engineStep_frame m p (cur i) (buf.data 0 i)
    (buf.data (rightChannel buf.numChannels) i)
    (stateBefore m p cur buf (prepareToPlay sr st) i)
  have hc := processLoop_numChannels m p cur i (buf, prepareToPlay sr st)
  have hd : ∀ ch, (processLoop m p cur i (buf, prepareToPlay sr st)).1.data ch i
      = buf.data ch i :=
    fun ch => processLoop_data_ge m p cur i (buf, prepareToPlay sr st) ch i (le_refl i)
  simp only [] at hc
  have hdl : (engineStep m p (cur i) (buf.data 0 i)
      (buf.data (rightChannel buf.numChannels) i)
      (stateBefore m p cur buf (prepareToPlay sr st) i)).2.delayLines
      = (stateBefore m p cur buf (prepareToPlay sr st) (i + 1)).delayLines := by
    simp only [stateBefore, processLoop, processSample, hc, hd]
  have hsr2 : (stateBefore m p cur buf (prepareToPlay sr st) i).currentSampleRate = sr := by
    have := (chorus_loop_invariant m p cur buf st sr i hm2 hv hfb).2.1
    exact this
  unfold engineAt
  rw [g1]
  simp only [voiceTap, voiceRead, voiceDelay, hmode, hdepth i, delaySamples_chorus_depth_zero,
    f2, f3, hdl, hsr2, w0, hr]
  have k1 := d1 ((i : Int) - ⌈chorusDelay sr⌉) (by push_cast; omega) (by push_cast; omega)
  rw [k1.1, k1.2]
  by_cases hz : ⌈chorusDelay sr⌉ = 0
  · have hle : chorusDelay sr ≤ 0 := by
      have := Int.ceil_le.mp (le_of_eq hz)
      simpa using this
    have hd : chorusDelay sr = 0 := le_antisymm hle hd0
    simp [interpolatedDelay, hz, hd]
  · have k2 := d1 ((i : Int) - ⌈chorusDelay sr⌉ + 1) (by push_cast; omega) (by push_cast; omega)
    rw [k2.1, k2.2]
    simp only [interpolatedDelay]
    refine Prod.ext ?_ ?_ <;> simp only <;> ring

/-- With the real `tanh`, warmth above the 0.01 threshold and a width of at most
1.01, both channels of the wet pair after the warmth and width stages are
below `1 / drive` in magnitude. -/
theorem post_real_bound (numChannels : Nat) (warmth width : ℝ) (e : ℝ × ℝ)
    (hw : 1 / 100 < warmth) (hwd0 : 0 ≤ width) (hwd1 : width ≤ 101 / 100) :
    |(applyWidth numChannels width (applyWarmth realFns warmth e)).1| < 1 / (1 + 3 * warmth) ∧
      |(applyWidth numChannels width (applyWarmth realFns warmth e)).2|
        < 1 / (1 + 3 * warmth) := by
  have hd : (0 : ℝ) < 1 + warmth * 3 := by linarith
  have hdd : (1 : ℝ) + 3 * warmth = 1 + warmth * 3 := by ring
  have hb : ∀ t : ℝ, |Real.tanh t / (1 + warmth * 3)| < 1 / (1 + warmth * 3) := by
    intro t
    rw [abs_div, abs_of_pos hd]
    exact div_lt_div_of_pos_right (tanh_abs_lt_one t) hd
  have hg : warmth > 1 / 100 := hw
  rw [hdd]
  simp only [applyWarmth, hg, if_true, realFns]
  obtain ⟨l0, l1⟩ := abs_lt.mp (hb (e.1 * (1 + warmth * 3)))
  obtain ⟨r0, r1⟩ := abs_lt.mp (hb (e.2 * (1 + warmth * 3)))
  unfold applyWidth
  by_cases hc : numChannels = 2 ∧ |width - 1| > 1 / 100
  · have hlt : width < 99 / 100 := by
      have h := hc.2
      by_contra hcon
      have h1 : |width - 1| ≤ 1 / 100 := by
        rw [abs_le]
        constructor <;> linarith
      linarith
    simp only [hc, and_self, if_true, midSide]
    constructor
    · rw [abs_lt]
      constructor <;> nlinarith
    · rw [abs_lt]
      constructor <;> nlinarith
  · simp only [hc, if_false]
    exact ⟨hb _, hb _⟩

/-- The dry/wet mix of a dry sample and a wet sample below `B` in magnitude is
below `B + |dry|` in magnitude, for a mix in `[0,1]`. -/
theorem mix_abs_lt (dry wet mix B : ℝ) (hwet : |wet| < B) (hm0 : 0 ≤ mix) (hm1 : mix ≤ 1) :
    |dry * (1 - mix) + wet * mix| < B + |dry| := by
  obtain ⟨w0, w1⟩ := abs_lt.mp hwet
  have hB : 0 < B := lt_of_le_of_lt (abs_nonneg wet) hwet
  have hd0 := neg_abs_le dry
  have hd1 := le_abs_self dry
  have ha := abs_nonneg dry
  have h1 : wet * mix < B := by
    rcases eq_or_lt_of_le hm0 with h | h
    · rw [← h]; simpa using hB
    · nlinarith
  have h2 : -B < wet * mix := by
    rcases eq_or_lt_of_le hm0 with h | h
    · rw [← h]; simpa using hB
    · nlinarith
  have h3 : dry * (1 - mix) ≤ |dry| := by nlinarith
  have h4 : -|dry| ≤ dry * (1 - mix) := by nlinarith
  rw [abs_lt]
  constructor <;> linarith

theorem tanh_four_gt_half : (1 / 2 : ℝ) < Real.tanh 4 := by
  have h5 : (5 : ℝ) ≤ Real.exp 4 := by
    have := Real.add_one_le_exp (4 : ℝ)
    linarith
  have hpos : 0 < Real.exp 4 := Real.exp_pos 4
  have hinv : Real.exp (-4) ≤ 1 / 5 := by
    rw [Real.exp_neg, inv_eq_one_div]
    exact one_div_le_one_div_of_le (by norm_num) h5
  have hc := Real.cosh_pos 4
  rw [Real.tanh_eq_sinh_div_cosh, lt_div_iff₀ hc, Real.sinh_eq, Real.cosh_eq]
  linarith

/-- Claim C11 as stated fails in two ways, shown on a stereo block in Chorus
mode at depth 0 with one voice, mix 1 and a delay of exactly one sample (sample
rate `2000 / 37` Hz), at sample 1 where the dry input is 0.  With warmth 0.005
(above 0, below the 0.01 threshold) the saturation is skipped and the output is
the delayed input 2, not below `1 / 1.015`.  With warmth 1 and width 2 the
inputs `1` and `-1` give the left output `tanh 4 / 2`, not below `1 / 4`. -/
theorem output_bound_counterexample :
    ¬ (|(processBlock realFns { (chorusScenarioParams : Params ℝ) with warmthVal := 1 / 200 }
            (fun _ => chorusScenarioSmoothed 1) (stereoBuffer [2, 0] [2, 0])
            (prepareToPlay (2000 / 37) (initialState (fun _ => 0)))).1.data 0 1|
          < 1 / (1 + 3 * (1 / 200)) + |(stereoBuffer [(2 : ℝ), 0] [2, 0]).data 0 1|) ∧
      ¬ (|(processBlock realFns
            { (chorusScenarioParams : Params ℝ) with warmthVal := 1, widthVal := 2 }
            (fun _ => chorusScenarioSmoothed 1) (stereoBuffer [1, 0] [-1, 0])
            (prepareToPlay (2000 / 37) (initialState (fun _ => 0)))).1.data 0 1|
          < 1 / (1 + 3 * 1) + |(stereoBuffer [(1 : ℝ), 0] [-1, 0]).data 0 1|) := by
  have hd : chorusDelay (2000 / 37 : ℝ) = ((1 : Int) : ℝ) := by
    unfold chorusDelay; norm_num
  have hc : ⌈chorusDelay (2000 / 37 : ℝ)⌉ = 1 := by
    rw [hd, Int.ceil_intCast]
  have hd1 : chorusDelay (2000 / 37 : ℝ) = 1 := by rw [hd]; norm_num
  constructor
  · have he := engineAt_chorus realFns
      { (chorusScenarioParams : Params ℝ) with warmthVal := 1 / 200 }
      (fun _ => chorusScenarioSmoothed 1) (stereoBuffer [2, 0] [2, 0])
      (initialState (fun _ => 0)) (2000 / 37) 1 rfl rfl (fun _ => rfl) (fun _ => rfl)
      (by norm_num) (by rw [hc]; decide)
    have hL := (processLoop_stereo realFns
      { (chorusScenarioParams : Params ℝ) with warmthVal := 1 / 200 }
      (fun _ => chorusScenarioSmoothed 1) (stereoBuffer [2, 0] [2, 0])
      (prepareToPlay (2000 / 37) (initialState (fun _ => 0))) 2 1 rfl (by decide)).1
    rw [processBlock_eq_loop _ _ _ _ _ rfl rfl]
    have hn : (stereoBuffer [(2 : ℝ), 0] [2, 0]).numSamples = 2 := rfl
    rw [hn, hL, wetAt_eq_post, he]
    have hw : ¬ ((1 / 200 : ℝ) > 1 / 100) := by norm_num
    have hx : ¬ (|(1 : ℝ) - 1| > 1 / 100) := by norm_num
    simp only [applyWarmth, applyWidth, chorusScenarioParams, defaultParams, hw, hx, if_false,
      and_false, interpolatedDelay, hc, hd1, delayedInput, stereoBuffer, chorusScenarioSmoothed]
    norm_num
  · have he := engineAt_chorus realFns
      { (chorusScenarioParams : Params ℝ) with warmthVal := 1, widthVal := 2 }
      (fun _ => chorusScenarioSmoothed 1) (stereoBuffer [1, 0] [-1, 0])
      (initialState (fun _ => 0)) (2000 / 37) 1 rfl rfl (fun _ => rfl) (fun _ => rfl)
      (by norm_num) (by rw [hc]; decide)
    have hL := (processLoop_stereo realFns
      { (chorusScenarioParams : Params ℝ) with warmthVal := 1, widthVal := 2 }
      (fun _ => chorusScenarioSmoothed 1) (stereoBuffer [1, 0] [-1, 0])
      (prepareToPlay (2000 / 37) (initialState (fun _ => 0))) 2 1 rfl (by decide)).1
    rw [processBlock_eq_loop _ _ _ _ _ rfl rfl]
    have hn : (stereoBuffer [(1 : ℝ), 0] [-1, 0]).numSamples = 2 := rfl
    rw [hn, hL, wetAt_eq_post, he]
    have hw : ((1 : ℝ) > 1 / 100) := by norm_num
    have hx : (2 : Nat) = 2 ∧ (|(2 : ℝ) - 1| > 1 / 100) := ⟨rfl, by norm_num⟩
    have hr : rightChannel (stereoBuffer [(1 : ℝ), 0] [-1, 0]).numChannels = 1 := rfl
    have hi0 : interpolatedDelay (stereoBuffer [(1 : ℝ), 0] [-1, 0]) 0
        (chorusDelay (2000 / 37)) 1 = 1 := by
      simp only [interpolatedDelay, hc, hd1, delayedInput, stereoBuffer]
      norm_num
    have hi1 : interpolatedDelay (stereoBuffer [(1 : ℝ), 0] [-1, 0]) 1
        (chorusDelay (2000 / 37)) 1 = -1 := by
      simp only [interpolatedDelay, hc, hd1, delayedInput, stereoBuffer]
      norm_num
    rw [hr, hi0, hi1]
    have hnc : (stereoBuffer [(1 : ℝ), 0] [-1, 0]).numChannels = 2 := rfl
    have hdry : (stereoBuffer [(1 : ℝ), 0] [-1, 0]).data 0 1 = 0 := by
      simp [stereoBuffer]
    simp only [hnc, hdry, applyWarmth, applyWidth, midSide, chorusScenarioParams, defaultParams,
      hw, hx, if_true, realFns, chorusScenarioSmoothed]
    have ht := tanh_four_gt_half
    have hneg : Real.tanh (-1 * (1 + 1 * 3)) = -Real.tanh 4 := by
      rw [show (-1 : ℝ) * (1 + 1 * 3) = -4 by norm_num, Real.tanh_neg]
    have hpos : Real.tanh (1 * (1 + 1 * 3)) = Real.tanh 4 := by
      rw [show (1 : ℝ) * (1 + 1 * 3) = 4 by norm_num]
    rw [hneg, hpos]
    simp only [and_self, if_true]
    have hval : 0 * (1 - 1) + ((Real.tanh 4 / (1 + 1 * 3) + -Real.tanh 4 / (1 + 1 * 3)) * (1 / 2)
        + (Real.tanh 4 / (1 + 1 * 3) - -Real.tanh 4 / (1 + 1 * 3)) * (1 / 2) * 2) * 1
        = Real.tanh 4 / 2 := by ring
    rw [hval, abs_of_pos (by linarith), abs_zero]
    norm_num
    linarith

/-- Claim C11, amended: for every warmth above the 0.01 activation threshold,
every width in `[0, 1.01]`, every smoothed mix in `[0,1]`, every mode and every
input, each output sample of a stereo block that is not bypassed satisfies
`|out| < 1 / drive + |dry|` with `drive = 1 + 3 * warmth` and `dry` the input
sample of that channel at that index (with the real `tanh`). -/
theorem output_bound_saturated (p : Params ℝ) (cur : Nat → Smoothed ℝ) (buf : AudioBuffer ℝ)
    (st : State ℝ) (i ch : Nat)
    (hio : st.totalNumInputChannels = st.totalNumOutputChannels)
    (hb : p.bypassVal = false) (h2 : buf.numChannels = 2) (hi : i < buf.numSamples)
    (hch : ch < 2)
    (hw : 1 / 100 < p.warmthVal) (hwd0 : 0 ≤ p.widthVal) (hwd1 : p.widthVal ≤ 101 / 100)
    (hm0 : 0 ≤ (cur i).curMix) (hm1 : (cur i).curMix ≤ 1) :
    |(processBlock realFns p cur buf st).1.data ch i|
      < 1 / (1 + 3 * p.warmthVal) + |buf.data ch i| := by
  obtain ⟨hL, hR⟩ := processLoop_stereo realFns p cur buf st buf.numSamples i h2 hi
  obtain ⟨b1, b2⟩ := post_real_bound buf.numChannels p.warmthVal p.widthVal
    (engineAt realFns p cur buf st i) hw hwd0 hwd1
  rw [← wetAt_eq_post] at b1 b2
  rw [processBlock_eq_loop realFns p cur buf st hio hb]
  have hch01 : ch = 0 ∨ ch = 1 := by omega
  rcases hch01 with h | h
  · subst h
    rw [hL]
    exact mix_abs_lt _ _ _ _ b1 hm0 hm1
  · subst h
    rw [hR]
    exact mix_abs_lt _ _ _ _ b2 hm0 hm1

theorem output_bound_saturated_witness :
    |(processBlock realFns (defaultParams : Params ℝ) (fun _ => defaultSmoothed)
        (stereoBuffer [1, 2] [3, 4]) (initialState (fun _ => 0))).1.data 1 1|
      < 1 / (1 + 3 * (defaultParams : Params ℝ).warmthVal)
        + |(stereoBuffer [(1 : ℝ), 2] [3, 4]).data 1 1| :=
  output_bound_saturated (defaultParams : Params ℝ) (fun _ => defaultSmoothed)
    (stereoBuffer [1, 2] [3, 4]) (initialState (fun _ => 0)) 1 1 rfl rfl rfl (by decide)
    (by decide) (by norm_num [defaultParams]) (by norm_num [defaultParams])
    (by norm_num [defaultParams]) (by norm_num [defaultSmoothed])
    (by norm_num [defaultSmoothed])

/-! ### The random LFO -/

/-- One `getRandomLFO` call keeps the held values, the targets and the pending
draws in `[-1,1]`, returns the new held value of its channel, leaves the held
values of the other channels alone and moves the held value by at most 0.02. -/
theorem getRandomLFO_step (phase : α) (channel : Nat) (st : State α) (h : RandomInRange st) :
    RandomInRange (getRandomLFO phase channel st).2 ∧
      (getRandomLFO phase channel st).2.randomLfoValue channel
        = (getRandomLFO phase channel st).1 ∧
      (∀ c, c ≠ channel →
        (getRandomLFO phase channel st).2.randomLfoValue c = st.randomLfoValue c) ∧
      |(getRandomLFO phase channel st).1 - st.randomLfoValue channel| ≤ 1 / 50 := by
  obtain ⟨hv, ht, hr⟩ := h
  have hv0 := hv channel
  have ht0 := ht channel
  have hr0 := hr 0
  unfold getRandomLFO
  by_cases hp : phase < st.lastRandomPhase
  · simp only [hp, if_true, setAt, RandomInRange]
    refine ⟨⟨?_, ?_, ?_⟩, ?_, ?_, ?_⟩
    · intro c
      by_cases hc : c = channel
      · simp only [hc, if_true]
        constructor <;> linarith
      · simp only [hc, if_false]
        exact hv c
    · intro c
      by_cases hc : c = channel
      · simp only [hc, if_true]
        exact hr0
      · simp only [hc, if_false]
        exact ht c
    · intro k
      exact hr (k + 1)
    · simp
    · intro c hc
      simp [hc]
    · rw [abs_le]
      constructor <;> linarith
  · simp only [hp, if_false, setAt, RandomInRange]
    refine ⟨⟨?_, ht, hr⟩, ?_, ?_, ?_⟩
    · intro c
      by_cases hc : c = channel
      · simp only [hc, if_true]
        constructor <;> linarith
      · simp only [hc, if_false]
        exact hv c
    · simp
    · intro c hc
      simp [hc]
    · rw [abs_le]
      constructor <;> linarith

theorem randomCalls_inRange (calls : List (α × Nat)) (st : State α) (h : RandomInRange st) :
    RandomInRange (randomCalls st calls) := by
  induction calls generalizing st with
  | nil => exact h
  | cons c cs ih => exact ih _ (getRandomLFO_step c.1 c.2 st h).1

/-- Claim C12: starting from the prepared state, after any sequence of
`getRandomLFO` calls with all drawn targets in `[-1,1]`, a further call keeps
the held value of every channel in `[-1,1]`; the value it returns is the new
held value of its channel, the held values of the other channels do not move,
and the returned value differs from the value previously held (the value last
returned for that channel, or the initial 0) by at most 0.02, also when the
call draws a new target. -/
theorem random_lfo_continuity (sampleRate : α) (st : State α) (calls : List (α × Nat))
    (phase : α) (channel : Nat)
    (hrng : ∀ k, -1 ≤ st.rng k ∧ st.rng k ≤ 1) :
    (∀ c, -1 ≤ (getRandomLFO phase channel
          (randomCalls (prepareToPlay sampleRate st) calls)).2.randomLfoValue c ∧
        (getRandomLFO phase channel
          (randomCalls (prepareToPlay sampleRate st) calls)).2.randomLfoValue c ≤ 1) ∧
      (getRandomLFO phase channel
          (randomCalls (prepareToPlay sampleRate st) calls)).2.randomLfoValue channel
        = (getRandomLFO phase channel (randomCalls (prepareToPlay sampleRate st) calls)).1 ∧
      (∀ c, c ≠ channel →
        (getRandomLFO phase channel
          (randomCalls (prepareToPlay sampleRate st) calls)).2.randomLfoValue c
          = (randomCalls (prepareToPlay sampleRate st) calls).randomLfoValue c) ∧
      |(getRandomLFO phase channel (randomCalls (prepareToPlay sampleRate st) calls)).1
          - (randomCalls (prepareToPlay sampleRate st) calls).randomLfoValue channel|
        ≤ 1 / 50 := by
  have h0 : RandomInRange (prepareToPlay sampleRate st) := by
    refine ⟨fun c => ?_, fun c => ?_, hrng⟩ <;> simp [prepareToPlay]
  have h1 := randomCalls_inRange calls _ h0
  obtain ⟨a, b, c, d⟩ := getRandomLFO_step phase channel _ h1
  exact ⟨a.1, b, c, d⟩

theorem random_lfo_continuity_witness :
    |(getRandomLFO (1 / 4 : ℚ) 0
        (randomCalls (prepareToPlay 44100 (initialState (fun _ => 1)))
          [(1 / 2, 0), (0, 1), (3 / 4, 0)])).1
      - (randomCalls (prepareToPlay (44100 : ℚ) (initialState (fun _ => 1)))
          [(1 / 2, 0), (0, 1), (3 / 4, 0)]).randomLfoValue 0| ≤ 1 / 50 :=
  (random_lfo_continuity (44100 : ℚ) (initialState (fun _ => 1))
    [(1 / 2, 0), (0, 1), (3 / 4, 0)] (1 / 4) 0
    (fun _ => ⟨by norm_num [initialState], by norm_num [initialState]⟩)).2.2.2

/-! ### The phaser stage frequency and coefficient -/

/-- With the real sine, colour and depth in `[0,1]` and an LFO value in
`[-1,1]`, the stage frequency lies in `[200, 8000]` Hz. -/
theorem stageFreq_real_bounds (p : Params ℝ) (cur : Smoothed ℝ) (lfo : ℝ) (s : Nat)
    (hc0 : 0 ≤ p.colorVal) (hc1 : p.colorVal ≤ 1)
    (hd0 : 0 ≤ cur.curDepth) (hd1 : cur.curDepth ≤ 1)
    (hl0 : -1 ≤ lfo) (hl1 : lfo ≤ 1) :
    200 ≤ stageFreq realFns p cur lfo s ∧ stageFreq realFns p cur lfo s ≤ 8000 := by
  have hs0 := Real.neg_one_le_sin (((s : ℝ) / (p.stagesVal : ℝ)) * Real.pi)
  have hs1 := Real.sin_le_one (((s : ℝ) / (p.stagesVal : ℝ)) * Real.pi)
  have hm : |lfo * Real.sin (((s : ℝ) / (p.stagesVal : ℝ)) * Real.pi)| ≤ 1 := by
    rw [abs_mul]
    have h1 : |lfo| ≤ 1 := abs_le.mpr ⟨hl0, hl1⟩
    have h2 : |Real.sin (((s : ℝ) / (p.stagesVal : ℝ)) * Real.pi)| ≤ 1 := abs_le.mpr ⟨hs0, hs1⟩
    calc |lfo| * |Real.sin (((s : ℝ) / (p.stagesVal : ℝ)) * Real.pi)| ≤ 1 * 1 :=
          mul_le_mul h1 h2 (abs_nonneg _) (by norm_num)
      _ = 1 := by norm_num
  obtain ⟨hm0, hm1⟩ := abs_le.mp hm
  have hx0 : -1 ≤ lfo * Real.sin (((s : ℝ) / (p.stagesVal : ℝ)) * Real.pi) * cur.curDepth := by
    nlinarith
  have hx1 : lfo * Real.sin (((s : ℝ) / (p.stagesVal : ℝ)) * Real.pi) * cur.curDepth ≤ 1 := by
    nlinarith
  simp only [stageFreq, realFns]
  constructor <;> nlinarith

/-- The allpass coefficient lies strictly between -1 and 1 when the tangent
argument lies in `(0, pi / 2)`. -/
theorem allpassCoeff_real_bounds (freq sr : ℝ) (hf0 : 0 < freq) (hf1 : freq < sr / 2) :
    0 < Real.pi * freq / sr ∧ Real.pi * freq / sr < Real.pi / 2 ∧
      0 < Real.tan (Real.pi * freq / sr) ∧
      -1 < allpassCoeff realFns freq sr ∧ allpassCoeff realFns freq sr < 1 := by
  have hsr : 0 < sr := by linarith
  have hpi := Real.pi_pos
  have ha0 : 0 < Real.pi * freq / sr := by positivity
  have ha1 : Real.pi * freq / sr < Real.pi / 2 := by
    rw [div_lt_iff₀ hsr]
    nlinarith
  have ht : 0 < Real.tan (Real.pi * freq / sr) := Real.tan_pos_of_pos_of_lt_pi_div_two ha0 ha1
  have hden : 0 < Real.tan (Real.pi * freq / sr) + 1 := by linarith
  refine ⟨ha0, ha1, ht, ?_, ?_⟩
  · simp only [allpassCoeff, realFns]
    rw [lt_div_iff₀ hden]
    linarith
  · simp only [allpassCoeff, realFns]
    rw [div_lt_one hden]
    linarith

/-- Claim C13 as stated fails: `processBlock` applies no clamp to the stage
frequency.  At 16 kHz sample rate, colour 1, depth 1, LFO value 1 and the middle
stage of two, the frequency handed to the tangent is 8000 Hz, which is not below
`0.5 * 16000 * 0.999 = 7992`, and the tangent argument is exactly `pi / 2`. -/
theorem stage_frequency_not_clamped_counterexample :
    stageFreq realFns { (defaultParams : Params ℝ) with stagesVal := 2, colorVal := 1 }
        { (defaultSmoothed : Smoothed ℝ) with curDepth := 1 } 1 1 = 8000 ∧
      ¬ ((8000 : ℝ) < 1 / 2 * 16000 * (999 / 1000)) ∧
      realFns.pi * 8000 / 16000 = Real.pi / 2 := by
  refine ⟨?_, by norm_num, ?_⟩
  · simp only [stageFreq, realFns, defaultParams, defaultSmoothed]
    rw [show (((1 : Nat) : ℝ) / ((2 : Int) : ℝ)) * Real.pi = Real.pi / 2 by push_cast; ring,
      Real.sin_pi_div_two]
    norm_num
  · simp only [realFns]
    ring

/-- Claim C13, amended: `processBlock` hands the stage frequency to the tangent
unclamped.  For every sample rate with `8000 < 0.5 * sampleRate * 0.999` (above
about 16016 Hz), colour and depth in `[0,1]`, any stage count and stage and an
LFO value in `[-1,1]`, that frequency lies in `[200, 8000]`, hence strictly
below `0.5 * sampleRate * 0.999`; the tangent argument lies in `(0, pi / 2)` and
the denominator `tan (..) + 1` of the coefficient is greater than 1. -/
theorem stage_frequency_below_nyquist (p : Params ℝ) (cur : Smoothed ℝ) (lfo sr : ℝ) (s : Nat)
    (hsr : 8000 < 1 / 2 * sr * (999 / 1000))
    (hc0 : 0 ≤ p.colorVal) (hc1 : p.colorVal ≤ 1)
    (hd0 : 0 ≤ cur.curDepth) (hd1 : cur.curDepth ≤ 1)
    (hl0 : -1 ≤ lfo) (hl1 : lfo ≤ 1) :
    (200 ≤ stageFreq realFns p cur lfo s ∧ stageFreq realFns p cur lfo s ≤ 8000) ∧
      stageFreq realFns p cur lfo s < 1 / 2 * sr * (999 / 1000) ∧
      0 < realFns.pi * stageFreq realFns p cur lfo s / sr ∧
      realFns.pi * stageFreq realFns p cur lfo s / sr < Real.pi / 2 ∧
      1 < realFns.tan (realFns.pi * stageFreq realFns p cur lfo s / sr) + 1 := by
  obtain ⟨f0, f1⟩ := stageFreq_real_bounds p cur lfo s hc0 hc1 hd0 hd1 hl0 hl1
  obtain ⟨a0, a1, t0, -, -⟩ := allpassCoeff_real_bounds (stageFreq realFns p cur lfo s) sr
    (by linarith) (by linarith)
  have t1 : 0 < realFns.tan (realFns.pi * stageFreq realFns p cur lfo s / sr) := t0
  refine ⟨⟨f0, f1⟩, by linarith, a0, a1, by linarith⟩

theorem stage_frequency_below_nyquist_witness :
    stageFreq realFns (defaultParams : Params ℝ) defaultSmoothed 1 3
      < 1 / 2 * 44100 * (999 / 1000) :=
  (stage_frequency_below_nyquist (defaultParams : Params ℝ) defaultSmoothed 1 44100 3
    (by norm_num) (by norm_num [defaultParams]) (by norm_num [defaultParams])
    (by norm_num [defaultSmoothed]) (by norm_num [defaultSmoothed])
    (by norm_num) (by norm_num)).2.1

/-! ### Prepare -/

/-- Claim C14: for every prior state and sample rate, `prepareToPlay` yields a
state whose delay buffers are zero everywhere, whose write cursor is 0, whose
allpass states are all 0, whose LFO phases, random-LFO values, targets and
last phase are 0 and whose feedback samples are 0; a second call in a row,
with any sample rate, gives the state a single call with that rate gives. -/
theorem prepareToPlay_resets (sampleRate sampleRate2 : α) (st : State α) :
    (∀ b pos, (prepareToPlay sampleRate st).delayLines b pos = 0) ∧
      (prepareToPlay sampleRate st).writePos = 0 ∧
      (∀ ch s, (prepareToPlay sampleRate st).phaserStages ch s = 0) ∧
      (∀ ch, (prepareToPlay sampleRate st).lfoPhase ch = 0) ∧
      (∀ ch, (prepareToPlay sampleRate st).randomLfoValue ch = 0) ∧
      (∀ ch, (prepareToPlay sampleRate st).randomLfoTarget ch = 0) ∧
      (prepareToPlay sampleRate st).lastRandomPhase = 0 ∧
      (∀ ch, (prepareToPlay sampleRate st).feedbackSample ch = 0) ∧
      prepareToPlay sampleRate (prepareToPlay sampleRate st) = prepareToPlay sampleRate st ∧
      prepareToPlay sampleRate2 (prepareToPlay sampleRate st) = prepareToPlay sampleRate2 st :=
  ⟨fun _ _ => rfl, rfl, fun _ _ => rfl, fun _ => rfl, fun _ => rfl, fun _ => rfl, rfl,
    fun _ => rfl, rfl, rfl⟩

/-! ### The shape selector in the delay modes -/

/-- The delay engine reads the state only through the sample rate, the delay
buffers, the write cursor, the LFO phases and the feedback samples, and does
not read the shape selector. -/
theorem delayEngine_congr (m : MathFns α) (p : Params α) (k : Int) (cur : Smoothed α)
    (inL inR : α) (a b : State α) (h : SameDelayState a b) :
    (delayEngine m { p with shapeVal := k } cur inL inR a).1
        = (delayEngine m p cur inL inR b).1 ∧
      SameDelayState (delayEngine m { p with shapeVal := k } cur inL inR a).2
        (delayEngine m p cur inL inR b).2 := by
  obtain ⟨h1, h2, h3, h4, h5⟩ := h
  simp only [delayEngine, writeVoices, readVoices, voiceTap, voiceRead, voiceDelay,
    SameDelayState, h1, h2, h3, h4, h5, and_self]

/-- The LFO step keeps two states in agreement on the delay members, whatever
the two shape selectors are. -/
theorem lfoStep_congr (m : MathFns α) (p : Params α) (k : Int) (cur : Smoothed α)
    (a b : State α) (h : SameDelayState a b) :
    SameDelayState (lfoStep m { p with shapeVal := k } cur a).2 (lfoStep m p cur b).2 := by
  obtain ⟨h1, h2, h3, h4, h5⟩ := h
  obtain ⟨a1, a2, a3, a4, a5, -⟩ := lfoStep_frame m { p with shapeVal := k } cur a
  obtain ⟨b1, b2, b3, b4, b5, -⟩ := lfoStep_frame m p cur b
  simp only [SameDelayState, a1, a2, a3, a4, a5, b1, b2, b3, b4, b5, h1, h2, h3, h4, h5,
    and_self]

theorem processSample_shape (m : MathFns α) (p : Params α) (k : Int) (cur : Smoothed α)
    (i : Nat) (buf : AudioBuffer α) (a b : State α) (hmode : p.modeVal ≠ 2)
    (h : SameDelayState a b) :
    (processSample m { p with shapeVal := k } cur i (buf, a)).1
        = (processSample m p cur i (buf, b)).1 ∧
      SameDelayState (processSample m { p with shapeVal := k } cur i (buf, a)).2
        (processSample m p cur i (buf, b)).2 := by
  have hl := lfoStep_congr m p k cur a b h
  obtain ⟨e1, e2⟩ := delayEngine_congr m p k cur (buf.data 0 i)
    (buf.data (rightChannel buf.numChannels) i) _ _ hl
  have hm : ({ p with shapeVal := k } : Params α).modeVal ≠ 2 := hmode
  obtain ⟨s1, s2, s3, s4, s5⟩ := e2
  simp only [processSample, wetPair, engineStep, if_neg hmode, if_neg hm, e1, SameDelayState,
    s1, s2, s3, s4, s5, and_self]

theorem processLoop_shape (m : MathFns α) (p : Params α) (k : Int) (cur : Nat → Smoothed α)
    (buf : AudioBuffer α) (st : State α) (n : Nat) (hmode : p.modeVal ≠ 2) :
    (processLoop m { p with shapeVal := k } cur n (buf, st)).1
        = (processLoop m p cur n (buf, st)).1 ∧
      SameDelayState (processLoop m { p with shapeVal := k } cur n (buf, st)).2
        (processLoop m p cur n (buf, st)).2 := by
  induction n with
  | zero => exact ⟨rfl, rfl, rfl, rfl, rfl, rfl⟩
  | succ j ih =>
    obtain ⟨ih1, ih2⟩ := ih
    have h := processSample_shape m p k (cur j) j
      (processLoop m p cur j (buf, st)).1
      (processLoop m { p with shapeVal := k } cur j (buf, st)).2
      (processLoop m p cur j (buf, st)).2 hmode ih2
    simp only [processLoop]
    rw [show processLoop m { p with shapeVal := k } cur j (buf, st)
        = ((processLoop m p cur j (buf, st)).1,
           (processLoop m { p with shapeVal := k } cur j (buf, st)).2) from
      Prod.ext ih1 rfl]
    exact h

/-- Claim C15: in the Chorus, Flanger and Ensemble modes (any mode other than
Phaser), for every input block, prior state and pair of parameter snapshots
that differ only in the shape selector, `processBlock` produces the same
output buffer, the same delay-buffer contents and the same feedback samples
(and the same write cursor and LFO phases). -/
theorem shape_ignored_in_delay_modes (m : MathFns α) (p : Params α) (k : Int)
    (cur : Nat → Smoothed α) (buf : AudioBuffer α) (st : State α)
    (hmode : p.modeVal ≠ 2) :
    (processBlock m { p with shapeVal := k } cur buf st).1 = (processBlock m p cur buf st).1 ∧
      (processBlock m { p with shapeVal := k } cur buf st).2.delayLines
        = (processBlock m p cur buf st).2.delayLines ∧
      (processBlock m { p with shapeVal := k } cur buf st).2.feedbackSample
        = (processBlock m p cur buf st).2.feedbackSample ∧
      (processBlock m { p with shapeVal := k } cur buf st).2.writePos
        = (processBlock m p cur buf st).2.writePos ∧
      (processBlock m { p with shapeVal := k } cur buf st).2.lfoPhase
        = (processBlock m p cur buf st).2.lfoPhase := by
  dsimp only [processBlock]
  by_cases hb : p.bypassVal = true
  · simp only [hb, if_true, and_self]
  · simp only [if_neg hb]
    obtain ⟨h1, -, h2, h3, h4, h5⟩ := processLoop_shape m p k cur (clearExtraOutputs st buf) st
      (clearExtraOutputs st buf).numSamples hmode
    exact ⟨h1, h2, h5, h3, h4⟩

theorem shape_ignored_in_delay_modes_witness :
    (processBlock ratFns { (defaultParams : Params ℚ) with shapeVal := 3 }
        (fun _ => defaultSmoothed) (stereoBuffer [1, 2] [3, 4]) (initialState (fun _ => 1))).1
      = (processBlock ratFns (defaultParams : Params ℚ)
        (fun _ => defaultSmoothed) (stereoBuffer [1, 2] [3, 4]) (initialState (fun _ => 1))).1 :=
  (shape_ignored_in_delay_modes ratFns (defaultParams : Params ℚ) 3
    (fun _ => defaultSmoothed) (stereoBuffer [1, 2] [3, 4]) (initialState (fun _ => 1))
    (by decide)).1

/-! ### The write cursor -/

theorem clearExtraOutputs_numSamples (st : State α) (buf : AudioBuffer α) :
    (clearExtraOutputs st buf).numSamples = buf.numSamples := by
  unfold clearExtraOutputs
  generalize List.range (st.totalNumOutputChannels - st.totalNumInputChannels) = l
  induction l generalizing buf with
  | nil => rfl
  | cons a t ih =>
    rw [List.foldl_cons, ih]
    rfl

/-- After `n` iterations from a cursor in range the cursor has advanced by `n`
modulo the capacity. -/
theorem processLoop_writePos (m : MathFns α) (p : Params α) (cur : Nat → Smoothed α)
    (buf : AudioBuffer α) (st : State α) (n : Nat)
    (hw0 : 0 ≤ st.writePos) (hw1 : st.writePos < 4096) :
    (processLoop m p cur n (buf, st)).2.writePos = (st.writePos + n) % 4096 := by
  induction n with
  | zero =>
    simp only [processLoop]
    push_cast
    omega
  | succ k ih =>
    obtain ⟨-, -, a3⟩ := processSample_frame m p (cur k) k (processLoop m p cur k (buf, st))
    rw [processLoop, a3, ih, kMaxDelaySize, Int.tmod_eq_emod (by omega) (by decide)]
    push_cast
    omega

theorem processBlock_writePos (m : MathFns α) (p : Params α) (cur : Nat → Smoothed α)
    (buf : AudioBuffer α) (st : State α)
    (hw0 : 0 ≤ st.writePos) (hw1 : st.writePos < 4096) :
    (processBlock m p cur buf st).2.writePos
      = if p.bypassVal then st.writePos else (st.writePos + buf.numSamples) % 4096 := by
  unfold processBlock
  by_cases hb : p.bypassVal = true
  · simp only [hb, if_true]
  · have hb2 : p.bypassVal = false := by simpa using hb
    simp only [hb2, Bool.false_eq_true, if_false]
    rw [processLoop_writePos m p cur _ st _ hw0 hw1, clearExtraOutputs_numSamples]

theorem runBlocks_writePos (m : MathFns α)
    (blocks : List (Params α × (Nat → Smoothed α) × AudioBuffer α)) (st : State α)
    (hw0 : 0 ≤ st.writePos) (hw1 : st.writePos < 4096) :
    0 ≤ (runBlocks m st blocks).writePos ∧ (runBlocks m st blocks).writePos < 4096 := by
  induction blocks generalizing st with
  | nil => exact ⟨hw0, hw1⟩
  | cons b bs ih =>
    have h := processBlock_writePos m b.1 b.2.1 b.2.2 st hw0 hw1
    apply ih
    · rw [h]; split_ifs
      · exact hw0
      · omega
    · rw [h]; split_ifs
      · exact hw1
      · omega

/-- Claim C16: the write cursor is 0 after `prepareToPlay` and lies in
`[0, 4096)` after every sequence of `processBlock` calls that follows; a
further block that is not bypassed moves it to `(writePos + n) mod 4096`, `n`
the number of samples of the block, in every mode, and a bypassed block leaves
it unchanged. -/
theorem write_cursor_in_range (m : MathFns α) (sampleRate : α) (st : State α)
    (blocks : List (Params α × (Nat → Smoothed α) × AudioBuffer α))
    (p : Params α) (cur : Nat → Smoothed α) (buf : AudioBuffer α) :
    (prepareToPlay sampleRate st).writePos = 0 ∧
      (0 ≤ (runBlocks m (prepareToPlay sampleRate st) blocks).writePos ∧
        (runBlocks m (prepareToPlay sampleRate st) blocks).writePos < kMaxDelaySize) ∧
      (processBlock m p cur buf (runBlocks m (prepareToPlay sampleRate st) blocks)).2.writePos
        = (if p.bypassVal then (runBlocks m (prepareToPlay sampleRate st) blocks).writePos
           else ((runBlocks m (prepareToPlay sampleRate st) blocks).writePos
             + buf.numSamples) % kMaxDelaySize) := by
  have h := runBlocks_writePos m blocks (prepareToPlay sampleRate st) (le_refl _)
    (by decide : (0 : Int) < 4096)
  exact ⟨rfl, h, processBlock_writePos m p cur buf _ h.1 h.2⟩

/-! ### Which engine touches which memory -/

theorem processLoop_delayLines_phaser (m : MathFns α) (p : Params α) (cur : Nat → Smoothed α)
    (bs : AudioBuffer α × State α) (n : Nat) (hmode : p.modeVal = 2) :
    (processLoop m p cur n bs).2.delayLines = bs.2.delayLines := by
  induction n with
  | zero => rfl
  | succ k ih => rw [processLoop, processSample_delayLines_phaser m p (cur k) k _ hmode, ih]

theorem processSample_phaserStages_delay (m : MathFns α) (p : Params α) (cur : Smoothed α)
    (i : Nat) (bs : AudioBuffer α × State α) (hmode : p.modeVal ≠ 2) :
    (processSample m p cur i bs).2.phaserStages = bs.2.phaserStages := by
  obtain ⟨-, -, -, -, -, a6⟩ := lfoStep_frame m p cur bs.2
  simp only [processSample, engineStep, if_neg hmode, delayEngine, a6]

theorem processLoop_phaserStages_delay (m : MathFns α) (p : Params α) (cur : Nat → Smoothed α)
    (bs : AudioBuffer α × State α) (n : Nat) (hmode : p.modeVal ≠ 2) :
    (processLoop m p cur n bs).2.phaserStages = bs.2.phaserStages := by
  induction n with
  | zero => rfl
  | succ k ih => rw [processLoop, processSample_phaserStages_delay m p (cur k) k _ hmode, ih]

/-- A delay-mode loop changes a buffer slot only in the buffers of the active
voices and only at a position the write cursor had at one of its iterations. -/
theorem processLoop_delayLines_changed (m : MathFns α) (p : Params α) (cur : Nat → Smoothed α)
    (buf : AudioBuffer α) (st : State α) (n : Nat) (hmode : p.modeVal ≠ 2) (b : Nat) (pos : Int)
    (h : (processLoop m p cur n (buf, st)).2.delayLines b pos ≠ st.delayLines b pos) :
    b < 2 * p.voicesVal.toNat ∧
      ∃ k, k < n ∧ pos = (stateBefore m p cur buf st k).writePos := by
  induction n with
  | zero => exact absurd rfl h
  | succ k ih =>
    rw [processLoop, processSample_delayLines m p (cur k) k _ hmode] at h
    by_cases hc : b < 2 * p.voicesVal.toNat ∧ pos = (processLoop m p cur k (buf, st)).2.writePos
    · exact ⟨hc.1, k, Nat.lt_succ_self k, hc.2⟩
    · rw [if_neg hc] at h
      obtain ⟨h1, j, hj, hp⟩ := ih h
      exact ⟨h1, j, Nat.lt_succ_of_lt hj, hp⟩

/-- Claim C17: a block processed in Phaser mode leaves every delay buffer
unchanged; a block processed in another mode (Chorus, Flanger, Ensemble) leaves
every allpass state unchanged, and a delay-buffer slot it changes belongs to a
buffer of an active voice (index below `2 * voices`) at a position the write
cursor had at one of the iterations of the block. -/
theorem engines_mutually_exclusive (m : MathFns α) (p : Params α) (cur : Nat → Smoothed α)
    (buf : AudioBuffer α) (st : State α)
    (hio : st.totalNumInputChannels = st.totalNumOutputChannels)
    (hb : p.bypassVal = false) :
    (p.modeVal = 2 → (processBlock m p cur buf st).2.delayLines = st.delayLines) ∧
      (p.modeVal ≠ 2 →
        (processBlock m p cur buf st).2.phaserStages = st.phaserStages ∧
        ∀ b pos, (processBlock m p cur buf st).2.delayLines b pos ≠ st.delayLines b pos →
          b < 2 * p.voicesVal.toNat ∧
            ∃ k, k < buf.numSamples ∧ pos = (stateBefore m p cur buf st k).writePos) := by
  rw [processBlock_eq_loop m p cur buf st hio hb]
  refine ⟨fun h => processLoop_delayLines_phaser m p cur _ _ h, fun h => ⟨?_, ?_⟩⟩
  · exact processLoop_phaserStages_delay m p cur _ _ h
  · intro b pos hne
    exact processLoop_delayLines_changed m p cur buf st _ h b pos hne

theorem engines_mutually_exclusive_witness :
    (processBlock ratFns (defaultParams : Params ℚ) (fun _ => defaultSmoothed)
        (stereoBuffer [1, 2] [3, 4]) (initialState (fun _ => 0))).2.phaserStages
      = (initialState (fun _ => (0 : ℚ))).phaserStages :=
  ((engines_mutually_exclusive ratFns (defaultParams : Params ℚ) (fun _ => defaultSmoothed)
    (stereoBuffer [1, 2] [3, 4]) (initialState (fun _ => 0)) rfl rfl).2 (by decide)).1

/-! ### Stereo width away from 1 -/

/-- Claim C18: in a stereo block, for every wet pair `(L, R)` and every width
`w` in `[0,2]` with `|w - 1| > 0.01`, the width stage returns `(L', R')` with
`L' + R' = L + R` and `L' - R' = w * (L - R)`; at `w = 0` both outputs are
`(L + R) / 2` and at `w = 2` the difference is doubled. -/
theorem width_mid_side (w L R : α) (hw0 : 0 ≤ w) (hw2 : w ≤ 2) (hw : |w - 1| > 1 / 100) :
    (applyWidth 2 w (L, R)).1 + (applyWidth 2 w (L, R)).2 = L + R ∧
      (applyWidth 2 w (L, R)).1 - (applyWidth 2 w (L, R)).2 = w * (L - R) ∧
      applyWidth 2 0 (L, R) = ((L + R) / 2, (L + R) / 2) ∧
      (applyWidth 2 2 (L, R)).1 - (applyWidth 2 2 (L, R)).2 = 2 * (L - R) := by
  have h0 : |(0 : α) - 1| > 1 / 100 := by norm_num
  have h2 : |(2 : α) - 1| > 1 / 100 := by norm_num
  simp only [applyWidth, hw, h0, h2, and_self, if_true, midSide]
  refine ⟨by ring, by ring, ?_, by ring⟩
  refine Prod.ext ?_ ?_ <;> simp only <;> ring

theorem width_mid_side_witness :
    (applyWidth 2 (3 / 2 : ℚ) (1, 3)).1 + (applyWidth 2 (3 / 2 : ℚ) (1, 3)).2 = 1 + 3 ∧
      (applyWidth 2 (3 / 2 : ℚ) (1, 3)).1 - (applyWidth 2 (3 / 2 : ℚ) (1, 3)).2
        = 3 / 2 * (1 - 3) :=
  ⟨(width_mid_side (3 / 2 : ℚ) 1 3 (by norm_num) (by norm_num)
      (by rw [show (3 / 2 : ℚ) - 1 = 1 / 2 by norm_num, abs_of_pos (by norm_num)]; norm_num)).1,
   (width_mid_side (3 / 2 : ℚ) 1 3 (by norm_num) (by norm_num)
      (by rw [show (3 / 2 : ℚ) - 1 = 1 / 2 by norm_num, abs_of_pos (by norm_num)]; norm_num)).2.1⟩

/-! ### Allpass stability -/

/-- Claim C19: for `0 < freq < sampleRate / 2` the allpass coefficient lies
strictly between -1 and 1.  The state recurrence of a stage is
`z1' = coeff * z1 + (1 - coeff ^ 2) * input`, so its pole is `coeff` and the
zero-input state never grows.  In particular, for colour and depth in `[0,1]`,
an LFO value in `[-1,1]` and a sample rate above 16000 Hz every phaser stage
coefficient has magnitude below 1. -/
theorem allpass_coefficient_stable (freq sr z1 input : ℝ)
    (hf0 : 0 < freq) (hf1 : freq < sr / 2) :
    (-1 < allpassCoeff realFns freq sr ∧ allpassCoeff realFns freq sr < 1) ∧
      (AllpassStage.process z1 input (allpassCoeff realFns freq sr)).2
        = allpassCoeff realFns freq sr * z1
          + (1 - allpassCoeff realFns freq sr ^ 2) * input ∧
      |(AllpassStage.process z1 0 (allpassCoeff realFns freq sr)).2| ≤ |z1| ∧
      (∀ (p : Params ℝ) (cur : Smoothed ℝ) (lfo sr2 : ℝ) (s : Nat),
        0 ≤ p.colorVal → p.colorVal ≤ 1 → 0 ≤ cur.curDepth → cur.curDepth ≤ 1 →
        -1 ≤ lfo → lfo ≤ 1 → 16000 < sr2 →
        |allpassCoeff realFns (stageFreq realFns p cur lfo s) sr2| < 1) := by
  obtain ⟨-, -, -, c0, c1⟩ := allpassCoeff_real_bounds freq sr hf0 hf1
  refine ⟨⟨c0, c1⟩, ?_, ?_, ?_⟩
  · simp only [AllpassStage.process]
    ring
  · simp only [AllpassStage.process]
    have hc : |allpassCoeff realFns freq sr| ≤ 1 := abs_le.mpr ⟨le_of_lt c0, le_of_lt c1⟩
    have : (-0 * allpassCoeff realFns freq sr + z1) * allpassCoeff realFns freq sr + 0
        = z1 * allpassCoeff realFns freq sr := by ring
    rw [this, abs_mul]
    calc |z1| * |allpassCoeff realFns freq sr| ≤ |z1| * 1 :=
          mul_le_mul_of_nonneg_left hc (abs_nonneg _)
      _ = |z1| := by ring
  · intro p cur lfo sr2 s hc0 hc1 hd0 hd1 hl0 hl1 hsr2
    obtain ⟨f0, f1⟩ := stageFreq_real_bounds p cur lfo s hc0 hc1 hd0 hd1 hl0 hl1
    obtain ⟨-, -, -, d0, d1⟩ := allpassCoeff_real_bounds (stageFreq realFns p cur lfo s) sr2
      (by linarith) (by linarith)
    exact abs_lt.mpr ⟨d0, d1⟩

theorem allpass_coefficient_stable_witness :
    -1 < allpassCoeff realFns 1000 44100 ∧ allpassCoeff realFns 1000 44100 < 1 :=
  (allpass_coefficient_stable 1000 44100 0 1 (by norm_num) (by norm_num)).1

/-! ### The random LFO with equal channel phases -/

/-- One iteration changes the random-LFO members only through the LFO value
computation. -/
theorem processSample_random_frame (m : MathFns α) (p : Params α) (cur : Smoothed α) (i : Nat)
    (bs : AudioBuffer α × State α) :
    (processSample m p cur i bs).2.randomLfoValue
        = (lfoValues m p.shapeVal bs.2).2.randomLfoValue ∧
      (processSample m p cur i bs).2.randomLfoTarget
        = (lfoValues m p.shapeVal bs.2).2.randomLfoTarget ∧
      (processSample m p cur i bs).2.lastRandomPhase
        = (lfoValues m p.shapeVal bs.2).2.lastRandomPhase ∧
      (processSample m p cur i bs).2.rng = (lfoValues m p.shapeVal bs.2).2.rng := by
  by_cases hmode : p.modeVal = 2
  · simp only [processSample, engineStep, hmode, if_true, phaserEngine, lfoStep, and_self]
  · simp only [processSample, engineStep, if_neg hmode, delayEngine, lfoStep, and_self]

/-- The two `getRandomLFO` calls of one sample when both channel phases are
equal and channel 1 holds value and target 0: channel 1 does not draw and
returns 0; channel 0 draws exactly when its phase is below the last phase. -/
theorem lfoValues_random_equal_phases (m : MathFns α) (st : State α)
    (hph : st.lfoPhase 1 = st.lfoPhase 0)
    (hv : st.randomLfoValue 1 = 0) (ht : st.randomLfoTarget 1 = 0) :
    ¬ (st.lfoPhase 1 < (getRandomLFO (st.lfoPhase 0) 0 st).2.lastRandomPhase) ∧
      (lfoValues m 3 st).1.2 = 0 ∧
      (lfoValues m 3 st).2.randomLfoValue 1 = 0 ∧
      (lfoValues m 3 st).2.randomLfoTarget 1 = 0 ∧
      (lfoValues m 3 st).2.lastRandomPhase = st.lfoPhase 0 ∧
      (lfoValues m 3 st).2.randomLfoTarget 0
        = (if st.lfoPhase 0 < st.lastRandomPhase then st.rng 0 else st.randomLfoTarget 0) ∧
      (lfoValues m 3 st).2.rng
        = (if st.lfoPhase 0 < st.lastRandomPhase then (fun k => st.rng (k + 1)) else st.rng) := by
  have h10 : ¬ ((1 : Nat) = 0) := by decide
  have h01 : ¬ ((0 : Nat) = 1) := by decide
  have hirr : ¬ (st.lfoPhase 0 < st.lfoPhase 0) := lt_irrefl _
  have hs3 : ¬ ((3 : Int) = 0) ∧ ¬ ((3 : Int) = 1) ∧ ¬ ((3 : Int) = 2) := by decide
  by_cases hg : st.lfoPhase 0 < st.lastRandomPhase
  · simp [lfoValues, getRandomLFO, setAt, hph, hv, ht, hg, hirr]
  · simp [lfoValues, getRandomLFO, setAt, hph, hv, ht, hg, hirr]

/-- With stereo offset 0 and an increment in `[0,1)` the advanced phases are
equal and in `[0,1)`, and the new phase is below the old one exactly when the
cycle wrapped. -/
theorem advancePhase_zero_offset (inc ph : α) (hi0 : 0 ≤ inc) (hi1 : inc < 1)
    (hp0 : 0 ≤ ph) (hp1 : ph < 1) :
    (advancePhase inc 0 ph).2 = (advancePhase inc 0 ph).1 ∧
      (0 ≤ (advancePhase inc 0 ph).1 ∧ (advancePhase inc 0 ph).1 < 1) ∧
      ((advancePhase inc 0 ph).1 < ph ↔ 1 ≤ ph + inc) := by
  unfold advancePhase
  simp only [ge_iff_le, add_zero]
  by_cases h : 1 ≤ ph + inc
  · have h2 : ¬ (1 ≤ ph + inc - 1) := by linarith
    simp only [h, if_true, h2, if_false, iff_true]
    refine ⟨trivial, ⟨?_, ?_⟩, ?_⟩ <;> linarith
  · have h2 : ph + inc < 1 := not_le.mp h
    simp only [h, if_false, iff_false, not_lt]
    refine ⟨trivial, ⟨?_, ?_⟩, ?_⟩ <;> linarith

/-- The invariant of the sample loop from the prepared state with Random shape
and stereo offset 0. -/
theorem random_loop_invariant (m : MathFns α) (p : Params α) (cur : Nat → Smoothed α)
    (buf : AudioBuffer α) (st : State α) (sr : α) (n : Nat)
    (hshape : p.shapeVal = 3) (hoff : p.stereoPhaseVal = 0)
    (hinc : ∀ i, 0 ≤ lfoInc m sr (cur i).curRate ∧ lfoInc m sr (cur i).curRate < 1) :
    (stateBefore m p cur buf (prepareToPlay sr st) n).currentSampleRate = sr ∧
      (stateBefore m p cur buf (prepareToPlay sr st) n).lfoPhase 1
        = (stateBefore m p cur buf (prepareToPlay sr st) n).lfoPhase 0 ∧
      (0 ≤ (stateBefore m p cur buf (prepareToPlay sr st) n).lfoPhase 0 ∧
        (stateBefore m p cur buf (prepareToPlay sr st) n).lfoPhase 0 < 1) ∧
      (stateBefore m p cur buf (prepareToPlay sr st) n).randomLfoValue 1 = 0 ∧
      (stateBefore m p cur buf (prepareToPlay sr st) n).randomLfoTarget 1 = 0 := by
  induction n with
  | zero =>
    simp [stateBefore, processLoop, prepareToPlay]
  | succ k ih =>
    obtain ⟨i1, i2, i3, i4, i5⟩ := ih
    simp only [stateBefore] at i1 i2 i3 i4 i5
    obtain ⟨a1, a2, -⟩ := processSample_frame m p (cur k) k
      (processLoop m p cur k (buf, prepareToPlay sr st))
    obtain ⟨b1, -⟩ := lfoStep_frame m p (cur k) (processLoop m p cur k (buf, prepareToPlay sr st)).2
    obtain ⟨r1, r2, -, -⟩ := processSample_random_frame m p (cur k) k
      (processLoop m p cur k (buf, prepareToPlay sr st))
    obtain ⟨-, -, l3, l4, -, -, -⟩ := lfoValues_random_equal_phases m
      (processLoop m p cur k (buf, prepareToPlay sr st)).2 i2 i4 i5
    obtain ⟨q1, q2, -⟩ := advancePhase_zero_offset (lfoInc m sr (cur k).curRate)
      ((processLoop m p cur k (buf, prepareToPlay sr st)).2.lfoPhase 0)
      (hinc k).1 (hinc k).2 i3.1 i3.2
    simp only [stateBefore, processLoop]
    rw [a1, a2, b1, r1, r2, hshape, hoff, i1, l3, l4]
    have h10 : ¬ ((1 : Nat) = 0) := by decide
    have h01 : ¬ ((0 : Nat) = 1) := by decide
    simp only [setAt, h10, h01, if_true, if_false, q1, true_and, and_true]
    exact q2

/-- With Random shape, as long as both channel phases are equal at every
sample, channel 1 keeps value and target 0 from the prepared state on. -/
theorem random_channel_one_zero (m : MathFns α) (p : Params α) (cur : Nat → Smoothed α)
    (buf : AudioBuffer α) (st : State α) (sr : α) (hshape : p.shapeVal = 3)
    (heq : ∀ n, (stateBefore m p cur buf (prepareToPlay sr st) n).lfoPhase 1
      = (stateBefore m p cur buf (prepareToPlay sr st) n).lfoPhase 0) (n : Nat) :
    (stateBefore m p cur buf (prepareToPlay sr st) n).randomLfoValue 1 = 0 ∧
      (stateBefore m p cur buf (prepareToPlay sr st) n).randomLfoTarget 1 = 0 := by
  induction n with
  | zero => exact ⟨rfl, rfl⟩
  | succ k ih =>
    obtain ⟨i4, i5⟩ := ih
    obtain ⟨-, -, l3, l4, -, -, -⟩ := lfoValues_random_equal_phases m
      (stateBefore m p cur buf (prepareToPlay sr st) k) (heq k) i4 i5
    obtain ⟨r1, r2, -, -⟩ := processSample_random_frame m p (cur k) k
      (processLoop m p cur k (buf, prepareToPlay sr st))
    simp only [stateBefore] at l3 l4 ⊢
    simp only [processLoop]
    rw [r1, r2, hshape, l3, l4]
    exact ⟨rfl, rfl⟩

/-- Claim C20: with shape = Random and stereo phase offset 0, from the prepared
state.  First, with a per-sample increment in `[0,1)` both channel phases are
equal at every sample, and the channel-0 phase decreases from one sample to the
next exactly when the cycle wrapped.  Second, whenever both channel phases are
equal at every sample, at every sample `n` the channel-1 call of `getRandomLFO`
does not see a phase below the last phase left by the channel-0 call, channel 1
keeps target 0 and value 0 and returns 0, the channel-0 call of sample `n + 1`
draws exactly when the phase decreased (the cycle wrapped) since sample `n`,
and a draw of channel 0 takes the next generator value as its target and is
the only draw of the sample. -/
theorem random_channel_one_silent (m : MathFns α) (p : Params α) (cur : Nat → Smoothed α)
    (buf : AudioBuffer α) (st : State α) (sr : α)
    (hshape : p.shapeVal = 3) (hoff : p.stereoPhaseVal = 0) :
    ((∀ i, 0 ≤ lfoInc m sr (cur i).curRate ∧ lfoInc m sr (cur i).curRate < 1) →
        ∀ n, (stateBefore m p cur buf (prepareToPlay sr st) n).lfoPhase 1
              = (stateBefore m p cur buf (prepareToPlay sr st) n).lfoPhase 0 ∧
          ((stateBefore m p cur buf (prepareToPlay sr st) (n + 1)).lfoPhase 0
              < (stateBefore m p cur buf (prepareToPlay sr st) n).lfoPhase 0
            ↔ 1 ≤ (stateBefore m p cur buf (prepareToPlay sr st) n).lfoPhase 0
                + lfoInc m sr (cur n).curRate)) ∧
      ((∀ n, (stateBefore m p cur buf (prepareToPlay sr st) n).lfoPhase 1
            = (stateBefore m p cur buf (prepareToPlay sr st) n).lfoPhase 0) →
        ∀ n,
          ¬ ((stateBefore m p cur buf (prepareToPlay sr st) n).lfoPhase 1
              < (getRandomLFO ((stateBefore m p cur buf (prepareToPlay sr st) n).lfoPhase 0) 0
                  (stateBefore m p cur buf (prepareToPlay sr st) n)).2.lastRandomPhase) ∧
          (stateBefore m p cur buf (prepareToPlay sr st) n).randomLfoTarget 1 = 0 ∧
          (stateBefore m p cur buf (prepareToPlay sr st) n).randomLfoValue 1 = 0 ∧
          (lfoValues m p.shapeVal (stateBefore m p cur buf (prepareToPlay sr st) n)).1.2 = 0 ∧
          ((stateBefore m p cur buf (prepareToPlay sr st) (n + 1)).lfoPhase 0
              < (stateBefore m p cur buf (prepareToPlay sr st) (n + 1)).lastRandomPhase
            ↔ (stateBefore m p cur buf (prepareToPlay sr st) (n + 1)).lfoPhase 0
                < (stateBefore m p cur buf (prepareToPlay sr st) n).lfoPhase 0) ∧
          (stateBefore m p cur buf (prepareToPlay sr st) (n + 1)).randomLfoTarget 0
            = (if (stateBefore m p cur buf (prepareToPlay sr st) n).lfoPhase 0
                  < (stateBefore m p cur buf (prepareToPlay sr st) n).lastRandomPhase
               then (stateBefore m p cur buf (prepareToPlay sr st) n).rng 0
               else (stateBefore m p cur buf (prepareToPlay sr st) n).randomLfoTarget 0) ∧
          (stateBefore m p cur buf (prepareToPlay sr st) (n + 1)).rng
            = (if (stateBefore m p cur buf (prepareToPlay sr st) n).lfoPhase 0
                  < (stateBefore m p cur buf (prepareToPlay sr st) n).lastRandomPhase
               then (fun k => (stateBefore m p cur buf (prepareToPlay sr st) n).rng (k + 1))
               else (stateBefore m p cur buf (prepareToPlay sr st) n).rng)) := by
  constructor
  · intro hinc n
    obtain ⟨i1, i2, i3, -, -⟩ := random_loop_invariant m p cur buf st sr n hshape hoff hinc
    obtain ⟨a1, -, -⟩ := processSample_frame m p (cur n) n
      (processLoop m p cur n (buf, prepareToPlay sr st))
    obtain ⟨b1, -⟩ := lfoStep_frame m p (cur n)
      (processLoop m p cur n (buf, prepareToPlay sr st)).2
    obtain ⟨-, -, q3⟩ := advancePhase_zero_offset (lfoInc m sr (cur n).curRate)
      ((stateBefore m p cur buf (prepareToPlay sr st) n).lfoPhase 0)
      (hinc n).1 (hinc n).2 i3.1 i3.2
    have e1 : (stateBefore m p cur buf (prepareToPlay sr st) (n + 1)).lfoPhase 0
        = (advancePhase (lfoInc m sr (cur n).curRate) 0
            ((stateBefore m p cur buf (prepareToPlay sr st) n).lfoPhase 0)).1 := by
      simp only [stateBefore] at i1 ⊢
      simp only [processLoop]
      rw [a1, b1, hoff, i1]
      simp [setAt]
    refine ⟨i2, ?_⟩
    rw [e1]
    exact q3
  · intro heq n
    obtain ⟨i4, i5⟩ := random_channel_one_zero m p cur buf st sr hshape heq n
    obtain ⟨l1, l2, -, -, l5, l6, l7⟩ := lfoValues_random_equal_phases m
      (stateBefore m p cur buf (prepareToPlay sr st) n) (heq n) i4 i5
    obtain ⟨-, r2, r3, r4⟩ := processSample_random_frame m p (cur n) n
      (processLoop m p cur n (buf, prepareToPlay sr st))
    refine ⟨l1, i5, i4, by rw [hshape]; exact l2, ?_, ?_, ?_⟩
    · have e2 : (stateBefore m p cur buf (prepareToPlay sr st) (n + 1)).lastRandomPhase
          = (stateBefore m p cur buf (prepareToPlay sr st) n).lfoPhase 0 := by
        simp only [stateBefore] at l5 ⊢
        simp only [processLoop]
        rw [r3, hshape, l5]
      rw [e2]
    · simp only [stateBefore] at l6 ⊢
      simp only [processLoop]
      rw [r2, hshape, l6]
    · simp only [stateBefore] at l7 ⊢
      simp only [processLoop]
      rw [r4, hshape, l7]

theorem random_channel_one_silent_witness :
    (lfoValues ratFns (3 : Int)
      (stateBefore ratFns { (defaultParams : Params ℚ) with shapeVal := 3, stereoPhaseVal := 0 }
        (fun _ => defaultSmoothed) (stereoBuffer [1, 2, 3] [4, 5, 6])
        (prepareToPlay 44100 (initialState (fun _ => 1))) 2)).1.2 = 0 :=
  ((random_channel_one_silent ratFns
      { (defaultParams : Params ℚ) with shapeVal := 3, stereoPhaseVal := 0 }
      (fun _ => defaultSmoothed) (stereoBuffer [1, 2, 3] [4, 5, 6]) (initialState (fun _ => 1))
      44100 rfl rfl).2
    (fun n => ((random_channel_one_silent ratFns
      { (defaultParams : Params ℚ) with shapeVal := 3, stereoPhaseVal := 0 }
      (fun _ => defaultSmoothed) (stereoBuffer [1, 2, 3] [4, 5, 6]) (initialState (fun _ => 1))
      44100 rfl rfl).1
      (fun _ => by
        have h : lfoInc ratFns (44100 : ℚ) (defaultSmoothed : Smoothed ℚ).curRate
            = 1 / 4410000 := by
          simp only [lfoInc, lfoFreq, ratFns]
          norm_num
        rw [h]
        constructor <;> norm_num) n).1) 2).2.2.2.1

end Proofs

end Sway
